/-
Verification of the Pediatric-Expert-Database crawl-and-merge pipeline.

Shallow embedding of the algorithmic core of the repository:
  * `2-pubmed_literature_crawler_with_journal.py`
      (get_mid_date, process_time_interval, crawl_time_interval,
       merge_new_articles, remove_duplicate_pmids)
  * `8-keywords_mesh_terms_combiner.py` (clean_keyword, similarity, process_paper)
  * `4-text_normalization_utils.py` (UnionFind, are_authors_same, process_author_group)
  * `5-author_data_enrichment.py` (extract_affiliation_info)
  * `6-llm_keyword_extractor_with_resume.py` (extract_keywords)

Modelling conventions:
  * A Python dict (a CSV row / article record) is an association list with unique
    keys; `pyGet` is subscripting (None = KeyError), `pySet` is item assignment
    (updates in place, else appends, matching insertion-ordered dict semantics),
    `pyUpdate` is `dict.update`.
  * Dates (YYYY/MM/DD strings parsed with `datetime.strptime`) are modelled as
    day numbers (`Nat`).  `(end - start)/2` on `timedelta` followed by
    `strftime("%Y/%m/%d")` truncates the possible half day, i.e. adds
    `(e - s) / 2` whole days.
  * Network calls are abstracted as oracle functions supplied as arguments;
    an exception is an explicit constructor of the outcome type.
  * Logging/printing is ignored except where it has a semantic effect
    (the statistics lines of `crawl_time_interval` divide by the length of the
    collected list, which raises ZeroDivisionError on an empty list; this is
    embedded as an explicit `Except.error`).
  * Recursion whose termination is in question (`process_time_interval`,
    `UnionFind.find`) is given an explicit fuel parameter; exhausting fuel
    yields `none` and marks divergence of the ideal recursion.
-/
import Mathlib

/-- An article record: a Python dict from field name to field value. -/
abbrev Article := List (String × String)

/-- Python dict subscripting `d[k]`: `none` models a KeyError. -/
def pyGet {κ α : Type} [BEq κ] (d : List (κ × α)) (k : κ) : Option α :=
  (d.find? (fun p => p.1 == k)).map (fun p => p.2)

/-- Python `k in d` on a dict. -/
def pyMem {κ α : Type} [BEq κ] (d : List (κ × α)) (k : κ) : Bool :=
  (pyGet d k).isSome

/-- Python dict item assignment `d[k] = v`: replaces the value in place when the
key is present, appends otherwise (insertion-ordered dict semantics). -/
def pySet {κ α : Type} [BEq κ] (d : List (κ × α)) (k : κ) (v : α) :
    List (κ × α) :=
  match d with
  | [] => [(k, v)]
  | (k', v') :: t => if k' == k then (k', v) :: t else (k', v') :: pySet t k v

/-- Python `d.update(new)`: assign every key/value pair of `new` in order. -/
def pyUpdate (d new : Article) : Article :=
  new.foldl (fun acc kv => pySet acc kv.1 kv.2) d

/-- The PMID of a record, defaulting to `""` (used only to state hypotheses;
the embedded code itself goes through `pyGet`). -/
def keyOf (a : Article) : String := ((pyGet a "PMID").getD "")

/-- `merge_new_articles(existing_articles, new_articles)` from
`2-pubmed_literature_crawler_with_journal.py` (lines 389-409).
Builds `pmid_to_article = {article['PMID']: article for article in existing}`;
for each new article with a colliding PMID it first copies a non-empty
`Journal` value, then runs `existing.update(new_article)`; finally returns
`list(pmid_to_article.values())`.  `none` models a KeyError on a missing
`'PMID'` key. -/
def mnaBuildStep (d : List (String × Article)) (a : Article) :
    Option (List (String × Article)) := do
  let p ← pyGet a "PMID"
  pure (pySet d p a)

def mnaMergeStep (d : List (String × Article)) (na : Article) :
    Option (List (String × Article)) := do
  let p ← pyGet na "PMID"
  match pyGet d p with
  | some ex =>
    let ex :=
      match pyGet na "Journal" with
      | some j => if j == "" then ex else pySet ex "Journal" j
      | none => ex
    pure (pySet d p (pyUpdate ex na))
  | none => pure (pySet d p na)

def merge_new_articles (existing_articles new_articles : List Article) :
    Option (List Article) := do
  let d0 ← existing_articles.foldlM mnaBuildStep ([] : List (String × Article))
  let d1 ← new_articles.foldlM mnaMergeStep d0
  pure (d1.map (fun p => p.2))

/-- One loop iteration of `remove_duplicate_pmids` (lines 361-374): drop the
row when its PMID is empty or already seen, keep it (recording the PMID)
otherwise. -/
def rdpStep (st : List Article × List String) (row : Article) :
    Option (List Article × List String) := do
  let pmid ← pyGet row "PMID"
  if pmid = "" ∨ pmid ∈ st.2 then
    pure st
  else
    pure (st.1 ++ [row], pmid :: st.2)

/-- The pure content of `remove_duplicate_pmids` (lines 352-386): scan the rows
in order, dropping any row whose PMID is empty or was already seen; the
surviving rows are written back.  `none` models a KeyError on `row['PMID']`. -/
def remove_duplicate_pmids (rows : List Article) : Option (List Article) :=
  (rows.foldlM rdpStep (([], []) : List Article × List String)).map
    (fun st => st.1)

/-- `get_mid_date(start_date, end_date)` (lines 289-297) on day numbers:
`start + (end - start)/2`, the half day truncated by `strftime`. -/
def get_mid_date (start_date end_date : Nat) : Nat :=
  start_date + (end_date - start_date) / 2

/-- `crawl_time_interval(search_url, total_results, existing_pmids)`
(lines 218-261).  `page_fetch p` abstracts `parse_page` for page `p`
(it returns `[]` after its own retries fail).  Pages `1..min(ceil(total/200),50)`
are fetched; articles whose PMID is in the exclusion set are dropped.  The
closing statistics lines compute `pmid_count / len(articles) * 100`, which
raises ZeroDivisionError when nothing was collected; this is the
`Except.error` branch. -/
def crawlFilterStep (existing_pmids : List String) (acc : List Article)
    (a : Article) : Except String (List Article) :=
  match pyGet a "PMID" with
  | none => Except.error "KeyError: PMID"
  | some p => pure (if p ∈ existing_pmids then acc else acc ++ [a])

def crawlPageStep (existing_pmids : List String)
    (page_fetch : Nat → List Article) (arts : List Article) (page0 : Nat) :
    Except String (List Article) := do
  let page_articles := page_fetch (page0 + 1)
  let new_articles ← page_articles.foldlM (crawlFilterStep existing_pmids)
    ([] : List Article)
  pure (arts ++ new_articles)

def crawl_time_interval (total_results : Nat) (existing_pmids : List String)
    (page_fetch : Nat → List Article) : Except String (List Article) := do
  let total_pages := (total_results + 199) / 200
  let actual_pages := min total_pages 50
  let articles ← (List.range actual_pages).foldlM
    (crawlPageStep existing_pmids page_fetch) ([] : List Article)
  if articles.isEmpty then
    Except.error "ZeroDivisionError: division by zero"
  else
    pure articles

/-- `process_time_interval(base_url, start, end, all_articles, existing_pmids)`
(lines 300-349), fuel-indexed.  `cnt s e` abstracts `get_total_results` for the
interval `[s, e]` (`none` = it raised after its retries; the surrounding
`except` then skips the interval).  A ZeroDivisionError (or KeyError) escaping
`crawl_time_interval` is likewise absorbed by the same `except`, so a failed
leaf contributes no articles.  Above 10,000 results the interval is split at
`get_mid_date` into `[s, mid]` and `[mid+1, e]` and both halves are processed
recursively.  `none` overall marks that the recursion exceeds `fuel` nesting
levels, i.e. divergence of the ideal (unbounded-stack) recursion. -/
def process_time_interval (fuel : Nat) (cnt : Nat → Nat → Option Nat)
    (page_fetch : Nat → Nat → Nat → List Article) (existing_pmids : List String)
    (start_date end_date : Nat) : Option (List Article) :=
  match fuel with
  | 0 => none
  | fuel + 1 =>
    match cnt start_date end_date with
    | none => some []
    | some total_results =>
      if total_results = 0 then some []
      else if total_results ≤ 10000 then
        match crawl_time_interval total_results existing_pmids
            (page_fetch start_date end_date) with
        | .error _ => some []
        | .ok articles => some articles
      else
        match process_time_interval fuel cnt page_fetch existing_pmids
                start_date (get_mid_date start_date end_date),
              process_time_interval fuel cnt page_fetch existing_pmids
                (get_mid_date start_date end_date + 1) end_date with
        | some a1, some a2 => some (a1 ++ a2)
        | _, _ => none

/-- The recursion of `process_time_interval` terminates on the given input:
some finite nesting depth suffices. -/
def TerminatesTI (cnt : Nat → Nat → Option Nat)
    (page_fetch : Nat → Nat → Nat → List Article) (existing_pmids : List String)
    (start_date end_date : Nat) : Prop :=
  ∃ fuel, (process_time_interval fuel cnt page_fetch existing_pmids
    start_date end_date).isSome

/- ------------------------------------------------------------------
   8-keywords_mesh_terms_combiner.py
   ------------------------------------------------------------------ -/

/-- Characters stripped by Python `str.strip()` (ASCII whitespace). -/
def pyIsSpace (c : Char) : Bool :=
  c = ' ' ∨ c = '\t' ∨ c = '\n' ∨ c = '\r' ∨ c = '\x0b' ∨ c = '\x0c'

/-- Characters kept by `re.sub(r'[^\w\s]', '', kw)`: word characters
(letters, digits, underscore; ASCII fragment) and whitespace. -/
def pyIsWordOrSpace (c : Char) : Bool :=
  c.isAlpha ∨ c.isDigit ∨ c = '_' ∨ pyIsSpace c

/-- Python `str.strip()` on a character list. -/
def pyStrip (l : List Char) : List Char :=
  ((l.dropWhile pyIsSpace).reverse.dropWhile pyIsSpace).reverse

/-- `clean_keyword(kw)` (line 35-37): remove punctuation, lowercase, strip. -/
def clean_keyword (kw : String) : String :=
  String.mk (pyStrip ((kw.toList.filter pyIsWordOrSpace).map Char.toLower))

/-- Length of the longest common prefix of two character lists. -/
def commonPrefixLen : List Char → List Char → Nat
  | a :: as, b :: bs => if a = b then commonPrefixLen as bs + 1 else 0
  | _, _ => 0

/-- `difflib.SequenceMatcher.find_longest_match` over whole strings, for
strings short enough that the autojunk heuristic is inert (< 200 characters,
which covers every keyword in this program): the longest matching block
`(i, j, size)`, ties broken by the smallest `i`, then the smallest `j`.
Candidates are scanned in lexicographic order and replaced only on a strictly
larger size, which realises exactly that tie-break. -/
def longest_match (a b : List Char) : Nat × Nat × Nat :=
  (List.range a.length).foldl (fun best i =>
    (List.range b.length).foldl (fun best j =>
      let k := commonPrefixLen (a.drop i) (b.drop j)
      if best.2.2 < k then (i, j, k) else best) best) (0, 0, 0)

theorem commonPrefixLen_le_left (a b : List Char) :
    commonPrefixLen a b ≤ a.length := by
  induction a generalizing b with
  | nil => cases b <;> simp [commonPrefixLen]
  | cons x xs ih =>
    cases b with
    | nil => simp [commonPrefixLen]
    | cons y ys =>
      simp only [commonPrefixLen, List.length_cons]
      split
      · exact Nat.add_le_add_right (ih ys) 1
      · omega

theorem commonPrefixLen_le_right (a b : List Char) :
    commonPrefixLen a b ≤ b.length := by
  induction a generalizing b with
  | nil => cases b <;> simp [commonPrefixLen]
  | cons x xs ih =>
    cases b with
    | nil => simp [commonPrefixLen]
    | cons y ys =>
      simp only [commonPrefixLen, List.length_cons]
      split
      · exact Nat.add_le_add_right (ih ys) 1
      · omega

/-- Any nonzero result of `longest_match` is a genuine in-range block. -/
theorem longest_match_sound (a b : List Char) :
    (longest_match a b).2.2 ≠ 0 →
      (longest_match a b).1 < a.length ∧ (longest_match a b).2.1 < b.length ∧
      (longest_match a b).2.2 =
        commonPrefixLen (a.drop (longest_match a b).1)
          (b.drop (longest_match a b).2.1) := by
  have main : ∀ (P : Nat × Nat × Nat → Prop),
      (P (0, 0, 0)) →
      (∀ st i j, i < a.length → j < b.length →
        P st → P (i, j, commonPrefixLen (a.drop i) (b.drop j))) →
      P (longest_match a b) := by
    intro P h0 hstep
    unfold longest_match
    have outer : ∀ (l : List Nat) (st : Nat × Nat × Nat),
        (∀ i ∈ l, i < a.length) → P st →
        P (l.foldl (fun best i =>
          (List.range b.length).foldl (fun best j =>
            let k := commonPrefixLen (a.drop i) (b.drop j)
            if best.2.2 < k then (i, j, k) else best) best) st) := by
      intro l
      induction l with
      | nil => intro st _ hst; simpa using hst
      | cons i t ih =>
        intro st hmem hst
        simp only [List.foldl_cons]
        apply ih
        · intro x hx; exact hmem x (List.mem_cons_of_mem _ hx)
        · have inner : ∀ (lj : List Nat) (st' : Nat × Nat × Nat),
              (∀ j ∈ lj, j < b.length) → P st' →
              P (lj.foldl (fun best j =>
                let k := commonPrefixLen (a.drop i) (b.drop j)
                if best.2.2 < k then (i, j, k) else best) st') := by
            intro lj
            induction lj with
            | nil => intro st' _ h; simpa using h
            | cons j tj ihj =>
              intro st' hmemj hst'
              simp only [List.foldl_cons]
              apply ihj
              · intro x hx; exact hmemj x (List.mem_cons_of_mem _ hx)
              · by_cases hk : st'.2.2 < commonPrefixLen (a.drop i) (b.drop j)
                · simpa [hk] using
                    hstep st' i j (hmem i (List.mem_cons_self i t))
                      (hmemj j (List.mem_cons_self j tj)) hst'
                · simpa [hk] using hst'
          exact inner (List.range b.length) st
            (fun j hj => List.mem_range.mp hj) hst
    exact outer (List.range a.length) (0, 0, 0)
      (fun i hi => List.mem_range.mp hi) h0
  intro hne
  refine main (fun st => st.2.2 ≠ 0 →
    st.1 < a.length ∧ st.2.1 < b.length ∧
    st.2.2 = commonPrefixLen (a.drop st.1) (b.drop st.2.1)) ?_ ?_ hne
  · intro h; simp at h
  · intro st i j hi hj _ _
    exact ⟨hi, hj, rfl⟩

/-- Total size of all matching blocks of `difflib.SequenceMatcher`
(`get_matching_blocks`), fuel-indexed so that the kernel can evaluate it:
recursively take the longest matching block and recurse on the pieces to its
left and to its right.  Each recursive call strictly shrinks the first string,
so fuel `a.length + 1` always suffices (`match_totalF_stable`). -/
def match_totalF : Nat → List Char → List Char → Nat
  | 0, _, _ => 0
  | fuel + 1, a, b =>
    if (longest_match a b).2.2 = 0 then 0
    else
      (longest_match a b).2.2 +
        match_totalF fuel (a.take (longest_match a b).1)
          (b.take (longest_match a b).2.1) +
        match_totalF fuel (a.drop ((longest_match a b).1 + (longest_match a b).2.2))
          (b.drop ((longest_match a b).2.1 + (longest_match a b).2.2))

/-- Any fuel beyond the length of the first string gives the same value: the
fuel is a device, not part of the semantics. -/
theorem match_totalF_stable : ∀ (fuel : Nat) (a b : List Char) (fuel' : Nat),
    a.length < fuel → a.length < fuel' →
    match_totalF fuel a b = match_totalF fuel' a b := by
  intro fuel
  induction fuel with
  | zero => intro a b fuel' h; omega
  | succ fuel ih =>
    intro a b fuel' h h'
    obtain ⟨f'', rfl⟩ : ∃ f'', fuel' = f'' + 1 := ⟨fuel' - 1, by omega⟩
    simp only [match_totalF]
    by_cases h0 : (longest_match a b).2.2 = 0
    · rw [if_pos h0, if_pos h0]
    · rw [if_neg h0, if_neg h0]
      have hs := longest_match_sound a b h0
      have hk := commonPrefixLen_le_left (a.drop (longest_match a b).1)
        (b.drop (longest_match a b).2.1)
      rw [← hs.2.2] at hk
      have e1 := ih (a.take (longest_match a b).1)
        (b.take (longest_match a b).2.1) f''
        (by simp only [List.length_take]; omega)
        (by simp only [List.length_take]; omega)
      have e2 := ih (a.drop ((longest_match a b).1 + (longest_match a b).2.2))
        (b.drop ((longest_match a b).2.1 + (longest_match a b).2.2)) f''
        (by simp only [List.length_drop] at *; omega)
        (by simp only [List.length_drop] at *; omega)
      rw [e1, e2]

/-- The total matching size at adequate fuel. -/
def match_total (a b : List Char) : Nat := match_totalF (a.length + 1) a b

/-- `SequenceMatcher(None, x, y).ratio() >= 0.6`, i.e. `2*M/(|x|+|y|) >= 0.6`,
stated exactly over the integers as `10*M >= 3*(|x|+|y|)`.  (For the string
lengths occurring here the floating-point comparison agrees with the exact
rational one: the gap between a ratio and 3/5, when nonzero, is at least
1/(5*(|x|+|y|)), far above double rounding error.) -/
def sim_ge_threshold (x y : List Char) : Bool :=
  3 * (x.length + y.length) ≤ 10 * match_total x y

/-- `EXCLUDE_KEYWORDS` (lines 8-31). -/
def EXCLUDE_KEYWORDS : List String :=
  ["Pediatric Patients", "Child", "Male", "Female", "Humans", "Childs",
   "postoperative complications", "Retrospective Studies", "Treatment Outcome",
   "Child, Preschool", "Infant, Newborn", "Prospective Studies",
   "Follow-Up Studies", "Specialties, Surgical", "Surveys and Questionnaires",
   "Surgical Procedures, Operative", "Adolescent", "Infant", "Length of stay",
   "Risk Factors", "United States", "Quality of Life"]

/-- `is_similar_to_excluded(clean_term, exclude_list)` (lines 39-49) at the
default threshold 0.6. -/
def is_similar_to_excluded (clean_term : String) (exclude_list : List String) :
    Bool :=
  exclude_list.any (fun excl =>
    sim_ge_threshold clean_term.toList (clean_keyword excl).toList)

/-- A term is skipped in `process_paper` when its cleaned form is literally in
the cleaned exclusion list or is similar to an exclusion entry. -/
def excludedTerm (clean : String) : Bool :=
  (EXCLUDE_KEYWORDS.map clean_keyword).contains clean ∨
    is_similar_to_excluded clean EXCLUDE_KEYWORDS

/-- `process_paper(row)` (lines 51-113) after the `ast.literal_eval` parsing of
the two list-valued columns: the four-case keyword/MeSH reconciliation.
In case 4 the accumulator's second component mirrors the `matched_clean` set,
which the source only ever writes (it is never consulted), so a MeSH term is
*not* prevented from matching a further keyword. -/
def process_paper (keywords mesh_terms : List String) : List String :=
  if keywords.isEmpty ∧ mesh_terms.isEmpty then []
  else if keywords.isEmpty then
    let clean_mesh := mesh_terms.map clean_keyword
    let valid_mesh := ((mesh_terms.zip clean_mesh).filter
      (fun p => ¬ excludedTerm p.2)).map (fun p => p.1)
    (valid_mesh.mergeSort (fun x y => y.length ≤ x.length)).take 5
  else if mesh_terms.isEmpty then
    let valid_keywords := keywords.filter
      (fun term => ¬ excludedTerm (clean_keyword term))
    valid_keywords.take 5
  else
    let clean_keywords := keywords.map clean_keyword
    let clean_mesh := mesh_terms.map clean_keyword
    let matched := (keywords.zip clean_keywords).foldl
      (fun (st : List String × List String) kwp =>
        if excludedTerm kwp.2 then st
        else
          match (mesh_terms.zip clean_mesh).find?
              (fun mp => ¬ excludedTerm mp.2 ∧
                sim_ge_threshold kwp.2.toList mp.2.toList) with
          | some mp => (st.1 ++ [kwp.1], mp.2 :: st.2)
          | none => st) (([], []) : List String × List String)
    matched.1.take 5

/- ------------------------------------------------------------------
   Oracle (LLM service) calls: 4-text_normalization_utils.py,
   5-author_data_enrichment.py, 6-llm_keyword_extractor_with_resume.py
   ------------------------------------------------------------------ -/

/-- Outcome of one `requests.post` attempt against the model endpoint:
either an HTTP response with a status code and the (already JSON-decoded)
response text, or a raised exception (timeout, connection error, JSON decode
error, missing key ...). -/
inductive OracleOutcome : Type where
  | resp (status : Nat) (body : String)
  | exn (msg : String)
deriving DecidableEq, Repr

/-- Python `pat in hay` on strings (substring test). -/
def strContainsSub (hay pat : List Char) : Bool :=
  (List.range (hay.length + 1)).any (fun i => pat.isPrefixOf (hay.drop i))

/-- `are_authors_same(affiliation1, affiliation2, author_name, model_endpoint)`
(`4-text_normalization_utils.py`, lines 71-145).  `oracle t` is the outcome of
the `t`-th `requests.post` the function would issue; the second component of
the result counts how many calls were actually made.  The function makes at
most one call: empty affiliations short-circuit to `False` with no call, and
every failure (exception, non-200 status, or a 200 response lacking both
verdict markers) immediately returns `False` with the logged message — there
is no retry loop. -/
def are_authors_same (affiliation1 affiliation2 : String)
    (oracle : Nat → OracleOutcome) : (Bool × String) × Nat :=
  if affiliation1 = "" ∨ affiliation2 = "" then
    ((false, "存在空单位信息，直接判定为不同人"), 0)
  else
    match oracle 0 with
    | .resp status body =>
      if status = 200 then
        let full_response := String.mk (pyStrip body.toList)
        if strContainsSub full_response.toList "判断结果：是".toList then
          ((true, full_response), 1)
        else if strContainsSub full_response.toList "判断结果：否".toList then
          ((false, full_response), 1)
        else
          ((false, full_response), 1)
      else
        ((false, "模型请求失败，状态码: " ++ toString status), 1)
    | .exn msg => ((false, "调用模型时出错: " ++ msg), 1)

/-- An attempt that the retry loop of `extract_affiliation_info` treats as a
failure: an exception or a non-200 status.  (A 200 response is always
consumed, however short or malformed its text.) -/
def isFailureOutcome : OracleOutcome → Prop
  | .resp status _ => status ≠ 200
  | .exn _ => True

instance (o : OracleOutcome) : Decidable (isFailureOutcome o) := by
  cases o <;> simp [isFailureOutcome] <;> infer_instance

/-- The line filter shared by `extract_affiliation_info` (lines 114-119) and
`extract_keywords` (lines 70-74): split on newlines, strip each line, keep the
non-empty ones that do not contain three backquotes. -/
def parsedLines (output : String) : List String :=
  ((output.splitOn "\n").map (fun l => String.mk (pyStrip l.toList))).filter
    (fun sl => sl ≠ "" ∧ ¬ strContainsSub sl.toList "```".toList)

/-- The retry loop of `extract_affiliation_info` (lines 92-141): `attempt` is
the index of the next call, `remaining` the attempts left out of
`max_retries = 3`.  A 200 response is parsed: the last three surviving lines
are organisation / city / country, each missing line replaced by `"未知"`
("unknown"); any other outcome consumes one retry.  The second result
component counts the calls made. -/
def eaiGo (index : Nat) (oracle : Nat → OracleOutcome) :
    Nat → Nat → (Nat × String × String × String) × Nat
  | attempt, 0 => ((index, "未知", "未知", "未知"), attempt)
  | attempt, remaining + 1 =>
    match oracle attempt with
    | .resp status body =>
      if status = 200 then
        let output := String.mk (pyStrip body.toList)
        let lines := parsedLines output
        let line_count := lines.length
        let organization :=
          if 3 ≤ line_count then lines.getD (line_count - 3) "未知" else "未知"
        let city :=
          if 2 ≤ line_count then lines.getD (line_count - 2) "未知" else "未知"
        let country :=
          if 1 ≤ line_count then lines.getD (line_count - 1) "未知" else "未知"
        ((index, organization, city, country), attempt + 1)
      else eaiGo index oracle (attempt + 1) remaining
    | .exn _ => eaiGo index oracle (attempt + 1) remaining

/-- `extract_affiliation_info(affiliation, model, index, max_retries=3)`
(`5-author_data_enrichment.py`, lines 57-141).  The oracle is a function of
the first semicolon-separated affiliation (the only input-dependent part of
the prompt) and of the attempt number. -/
def extract_affiliation_info (affiliation : String) (index : Nat)
    (oracle : String → Nat → OracleOutcome) :
    (Nat × String × String × String) × Nat :=
  let first_affiliation :=
    String.mk (pyStrip (((affiliation.splitOn ";").headD "").toList))
  eaiGo index (oracle first_affiliation) 0 3

/-- `extract_keywords(abstract)` (`6-llm_keyword_extractor_with_resume.py`,
lines 15-90).  A single `requests.post` is made — there is no retry loop.  On
a 200 response the surviving lines are sliced to the last five (the
`lines[-1] == '```'` branch of the source is unreachable because the filter
already drops lines containing three backquotes, but it is embedded as
written) and padded with empty strings to length 5; a non-200 status or an
exception yields five empty strings.  The second component counts calls. -/
def extract_keywords (_abstract : String) (oracle : Nat → OracleOutcome) :
    List String × Nat :=
  match oracle 0 with
  | .resp status body =>
    if status = 200 then
      let output := String.mk (pyStrip body.toList)
      let lines := parsedLines output
      let keywords :=
        if lines ≠ [] ∧ lines.getD (lines.length - 1) "" = "```" then
          (lines.drop (lines.length - 6)).dropLast
        else
          lines.drop (lines.length - 5)
      let keywords := keywords ++ List.replicate (5 - keywords.length) ""
      (keywords.take 5, 1)
    else (["", "", "", "", ""], 1)
  | .exn _ => (["", "", "", "", ""], 1)

/- ------------------------------------------------------------------
   UnionFind and process_author_group: 4-text_normalization_utils.py
   ------------------------------------------------------------------ -/

/-- The `UnionFind` class of `4-text_normalization_utils.py` (lines 31-55):
a parent array and a rank array. -/
structure UnionFind : Type where
  parent : List Nat
  rank : List Nat
deriving DecidableEq, Repr

/-- `UnionFind(n)`: `parent = list(range(n))`, `rank = [0] * n`. -/
def ufInit (n : Nat) : UnionFind :=
  ⟨List.range n, List.replicate n 0⟩

/-- One step along the parent array (`parent[x]`; out-of-range reads, which
never occur in reachable states, act as fixpoints). -/
def pstep (p : List Nat) (x : Nat) : Nat := p.getD x x

/-- `k` steps along the parent array. -/
def iterP (p : List Nat) (k x : Nat) : Nat := (pstep p)^[k] x

/-- `x` is a root: `parent[x] == x`. -/
def isRoot (p : List Nat) (x : Nat) : Prop := pstep p x = x

instance (p : List Nat) (x : Nat) : Decidable (isRoot p x) := by
  unfold isRoot; infer_instance

/-- The root of `x`: following the parent array for `length` steps always
suffices in a well-formed state. -/
def rootD (p : List Nat) (x : Nat) : Nat := iterP p p.length x

/-- The parent array stays within range. -/
def RangeOK (p : List Nat) : Prop := ∀ x, x < p.length → pstep p x < p.length

/-- Every node reaches a root (no cycles). -/
def Reaches (p : List Nat) : Prop :=
  ∀ x, x < p.length → ∃ k, isRoot p (iterP p k x)

/-- Well-formedness of a union-find parent array. -/
def UFOK (p : List Nat) : Prop := RangeOK p ∧ Reaches p

/-- `UnionFind.find(x)` (lines 37-40) with full path compression:
`if parent[x] != x: parent[x] = find(parent[x]); return parent[x]`.
The recursion of the source is structural on the (acyclic) parent chain; the
embedding makes it structural on an explicit fuel, which is always called
with `parent.length` — enough fuel in every well-formed state
(`find_spec` below). -/
def UnionFind.find : Nat → UnionFind → Nat → Nat × UnionFind
  | 0, uf, x => (x, uf)
  | fuel + 1, uf, x =>
    if pstep uf.parent x = x then (x, uf)
    else
      let r := UnionFind.find fuel uf (pstep uf.parent x)
      (r.1, ⟨r.2.parent.set x r.1, r.2.rank⟩)

/-- `UnionFind.union(x, y)` (lines 42-55): find both roots, return if equal,
else attach by rank (ties attach `root_y` under `root_x` and bump the rank
of `root_x`). -/
def UnionFind.union (uf : UnionFind) (x y : Nat) : UnionFind :=
  let fx := UnionFind.find uf.parent.length uf x
  let fy := UnionFind.find fx.2.parent.length fx.2 y
  let root_x := fx.1
  let root_y := fy.1
  let uf2 := fy.2
  if root_x = root_y then uf2
  else if uf2.rank.getD root_x 0 < uf2.rank.getD root_y 0 then
    ⟨uf2.parent.set root_x root_y, uf2.rank⟩
  else if uf2.rank.getD root_y 0 < uf2.rank.getD root_x 0 then
    ⟨uf2.parent.set root_y root_x, uf2.rank⟩
  else
    ⟨uf2.parent.set root_y root_x,
      uf2.rank.set root_x (uf2.rank.getD root_x 0 + 1)⟩

theorem iterP_zero (p : List Nat) (x : Nat) : iterP p 0 x = x := rfl

theorem iterP_succ (p : List Nat) (k x : Nat) :
    iterP p (k + 1) x = iterP p k (pstep p x) :=
  Function.iterate_succ_apply (pstep p) k x

theorem iterP_add (p : List Nat) (a b x : Nat) :
    iterP p (a + b) x = iterP p a (iterP p b x) := by
  unfold iterP
  rw [Function.iterate_add_apply]

theorem iterP_succ_out (p : List Nat) (k x : Nat) :
    iterP p (k + 1) x = pstep p (iterP p k x) :=
  Function.iterate_succ_apply' (pstep p) k x

theorem isRoot_iterP (p : List Nat) (r : Nat) (h : isRoot p r) (k : Nat) :
    iterP p k r = r := by
  induction k with
  | zero => rfl
  | succ k ih => rw [iterP_succ, h, ih]

/-- Once a root is reached, later iterates stay there. -/
theorem iterP_stab (p : List Nat) (k x : Nat)
    (h : isRoot p (iterP p k x)) :
    ∀ m, k ≤ m → iterP p m x = iterP p k x := by
  intro m hm
  obtain ⟨d, rfl⟩ := Nat.exists_eq_add_of_le hm
  rw [Nat.add_comm k d, iterP_add]
  exact isRoot_iterP p _ h d

theorem iterP_lt (p : List Nat) (hp : RangeOK p) (x : Nat)
    (hx : x < p.length) (k : Nat) : iterP p k x < p.length := by
  induction k with
  | zero => exact hx
  | succ k ih =>
    rw [iterP_succ_out]
    exact hp _ ih

/-- Pigeonhole: in an acyclic, in-range parent array over `n` entries, the root
is reached in fewer than `n` steps. -/
theorem reach_bound (p : List Nat) (hp : RangeOK p) (x : Nat)
    (hx : x < p.length) (hr : ∃ k, isRoot p (iterP p k x)) :
    ∃ k, k < p.length ∧ isRoot p (iterP p k x) := by
  classical
  let k0 := Nat.find hr
  have hk0 : isRoot p (iterP p k0 x) := Nat.find_spec hr
  have hmin : ∀ m, m < k0 → ¬ isRoot p (iterP p m x) := fun m hm =>
    Nat.find_min hr hm
  have noRepeat : ∀ i j : Nat, i < j → j ≤ k0 →
      iterP p i x ≠ iterP p j x := by
    intro i j hij hj heq
    have h1 : iterP p (k0 - j + i) x = iterP p k0 x := by
      calc iterP p (k0 - j + i) x
          = iterP p (k0 - j) (iterP p i x) := iterP_add p (k0 - j) i x
        _ = iterP p (k0 - j) (iterP p j x) := by rw [heq]
        _ = iterP p (k0 - j + j) x := (iterP_add p (k0 - j) j x).symm
        _ = iterP p k0 x := by rw [Nat.sub_add_cancel hj]
    have hroot : isRoot p (iterP p (k0 - j + i) x) := h1 ▸ hk0
    exact hmin (k0 - j + i) (by omega) hroot
  have hinj : Function.Injective
      (fun i : Fin (k0 + 1) => (⟨iterP p i.1 x, iterP_lt p hp x hx i.1⟩ :
        Fin p.length)) := by
    intro i j hij
    simp only [Fin.mk.injEq] at hij
    by_contra hne
    rcases Nat.lt_or_ge i.1 j.1 with hlt | hge
    · exact noRepeat i.1 j.1 hlt (Nat.lt_succ_iff.mp j.2) hij
    · rcases Nat.lt_or_ge j.1 i.1 with hlt2 | hge2
      · exact noRepeat j.1 i.1 hlt2 (Nat.lt_succ_iff.mp i.2) hij.symm
      · exact hne (Fin.ext (Nat.le_antisymm hge2 hge))
  have hcard : k0 + 1 ≤ p.length := by
    have := Fintype.card_le_of_injective _ hinj
    simpa using this
  exact ⟨k0, by omega, hk0⟩

/-- In a well-formed state `rootD` lands on a root. -/
theorem rootD_isRoot (p : List Nat) (h : UFOK p) (x : Nat)
    (hx : x < p.length) : isRoot p (rootD p x) := by
  obtain ⟨k, hk, hr⟩ := reach_bound p h.1 x hx (h.2 x hx)
  have := iterP_stab p k x hr p.length (Nat.le_of_lt hk)
  unfold rootD
  rw [this]
  exact hr

theorem rootD_of_isRoot (p : List Nat) (x : Nat) (h : isRoot p x) :
    rootD p x = x := isRoot_iterP p x h p.length

/-- Stepping once does not change the root. -/
theorem rootD_pstep (p : List Nat) (h : UFOK p) (x : Nat)
    (hx : x < p.length) : rootD p (pstep p x) = rootD p x := by
  obtain ⟨k, hk, hr⟩ := reach_bound p h.1 x hx (h.2 x hx)
  have h1 : rootD p x = iterP p k x :=
    iterP_stab p k x hr p.length (Nat.le_of_lt hk)
  have h2 : iterP p (p.length + 1) x = iterP p k x :=
    iterP_stab p k x hr (p.length + 1) (by omega)
  have h3 : iterP p (p.length + 1) x = rootD p (pstep p x) :=
    iterP_succ p p.length x
  rw [h1, ← h2, h3]

theorem rootD_lt (p : List Nat) (hp : RangeOK p) (x : Nat)
    (hx : x < p.length) : rootD p x < p.length :=
  iterP_lt p hp x hx p.length

/-- Pointwise description of the parent array after `p[x0] = v`. -/
theorem pstep_set (p : List Nat) (x0 v : Nat) (hx0 : x0 < p.length) (z : Nat) :
    pstep (p.set x0 v) z = if z = x0 then v else pstep p z := by
  unfold pstep
  by_cases hz : z = x0
  · subst hz
    simp [List.getD, List.getElem?_set, hx0]
  · simp only [hz, if_false]
    simp [List.getD, List.getElem?_set, Ne.symm hz]

theorem rootD_eq_iter (q : List Nat) (x : Nat) :
    rootD q x = iterP q q.length x := rfl

/-- Path compression: overwriting `parent[x0]` with the root of `x0` keeps the
state well-formed and changes nobody's root. -/
theorem set_root_preserve (p : List Nat) (h : UFOK p) (x0 : Nat)
    (hx0 : x0 < p.length) :
    (p.set x0 (rootD p x0)).length = p.length ∧
    UFOK (p.set x0 (rootD p x0)) ∧
    ∀ y, y < p.length → rootD (p.set x0 (rootD p x0)) y = rootD p y := by
  have hlen : (p.set x0 (rootD p x0)).length = p.length := List.length_set p x0 _
  have hrroot : isRoot p (rootD p x0) := rootD_isRoot p h x0 hx0
  have hrlt : rootD p x0 < p.length := rootD_lt p h.1 x0 hx0
  have hstep : ∀ z, pstep (p.set x0 (rootD p x0)) z =
      if z = x0 then rootD p x0 else pstep p z :=
    pstep_set p x0 (rootD p x0) hx0
  have hrroot' : isRoot (p.set x0 (rootD p x0)) (rootD p x0) := by
    unfold isRoot
    rw [hstep]
    by_cases hrx : rootD p x0 = x0
    · simp [hrx]
    · simp only [hrx, if_false]
      exact hrroot
  have hlenpos : ∀ y : Nat, y < p.length → ∃ m, p.length = m + 1 := by
    intro y hy
    exact ⟨p.length - 1, by omega⟩
  have main : ∀ j, j ≤ p.length → ∀ y, y < p.length →
      (∃ k, k ≤ j ∧ isRoot p (iterP p k y)) →
      (∃ k', k' ≤ j ∧ isRoot (p.set x0 (rootD p x0)) (iterP (p.set x0 (rootD p x0)) k' y)) ∧
      rootD (p.set x0 (rootD p x0)) y = rootD p y := by
    intro j
    induction j with
    | zero =>
      intro _ y hy ⟨k, hk, hroot⟩
      have hk0 : k = 0 := Nat.le_zero.mp hk
      subst hk0
      have hry : isRoot p y := hroot
      by_cases hyx : y = x0
      · subst hyx
        have hrx : rootD p y = y := rootD_of_isRoot p y hry
        have hroot' : isRoot (p.set y (rootD p y)) y := by
          unfold isRoot
          rw [hstep]
          simp [hrx]
        refine ⟨⟨0, Nat.le_refl 0, hroot'⟩, ?_⟩
        rw [rootD_of_isRoot _ y hroot', rootD_of_isRoot p y hry]
      · have hroot' : isRoot (p.set x0 (rootD p x0)) y := by
          unfold isRoot
          rw [hstep]
          simp only [hyx, if_false]
          exact hry
        refine ⟨⟨0, Nat.le_refl 0, hroot'⟩, ?_⟩
        rw [rootD_of_isRoot _ y hroot', rootD_of_isRoot p y hry]
    | succ j ih =>
      intro hj y hy ⟨k, hk, hroot⟩
      by_cases hry : isRoot p y
      · by_cases hyx : y = x0
        · subst hyx
          have hrx : rootD p y = y := rootD_of_isRoot p y hry
          have hroot' : isRoot (p.set y (rootD p y)) y := by
            unfold isRoot
            rw [hstep]
            simp [hrx]
          refine ⟨⟨0, Nat.zero_le _, hroot'⟩, ?_⟩
          rw [rootD_of_isRoot _ y hroot', rootD_of_isRoot p y hry]
        · have hroot' : isRoot (p.set x0 (rootD p x0)) y := by
            unfold isRoot
            rw [hstep]
            simp only [hyx, if_false]
            exact hry
          refine ⟨⟨0, Nat.zero_le _, hroot'⟩, ?_⟩
          rw [rootD_of_isRoot _ y hroot', rootD_of_isRoot p y hry]
      · by_cases hyx : y = x0
        · subst hyx
          have hrneq : rootD p y ≠ y := by
            intro hcontra
            exact hry (hcontra ▸ rootD_isRoot p h y hy)
          have hstepy : pstep (p.set y (rootD p y)) y = rootD p y := by
            rw [hstep]
            simp
          have hchain : isRoot (p.set y (rootD p y)) (iterP (p.set y (rootD p y)) 1 y) := by
            have : iterP (p.set y (rootD p y)) 1 y = pstep (p.set y (rootD p y)) y := rfl
            rw [this, hstepy]
            exact hrroot'
          refine ⟨⟨1, by omega, hchain⟩, ?_⟩
          obtain ⟨m, hm⟩ := hlenpos y hy
          have hroots : rootD (p.set y (rootD p y)) y = rootD p y := by
            rw [rootD_eq_iter, hlen, hm, iterP_succ, hstepy]
            exact isRoot_iterP _ _ hrroot' m
          exact hroots
        · have hk1 : k ≠ 0 := by
            intro hk0
            subst hk0
            exact hry hroot
          have hstepy : pstep (p.set x0 (rootD p x0)) y = pstep p y := by
            rw [hstep]
            simp [hyx]
          have hzlt : pstep p y < p.length := h.1 y hy
          have hzroot : isRoot p (iterP p (k - 1) (pstep p y)) := by
            have heq : iterP p k y = iterP p (k - 1) (pstep p y) := by
              have hke : k = (k - 1) + 1 := by omega
              conv_lhs => rw [hke]
              rw [iterP_succ]
            rw [← heq]
            exact hroot
          obtain ⟨⟨k'', hk'', hroot''⟩, hrd⟩ :=
            ih (by omega) (pstep p y) hzlt ⟨k - 1, by omega, hzroot⟩
          have hchain : isRoot (p.set x0 (rootD p x0))
              (iterP (p.set x0 (rootD p x0)) (k'' + 1) y) := by
            rw [iterP_succ, hstepy]
            exact hroot''
          refine ⟨⟨k'' + 1, by omega, hchain⟩, ?_⟩
          obtain ⟨m, hm⟩ := hlenpos y hy
          have e1 : rootD (p.set x0 (rootD p x0)) y =
              iterP (p.set x0 (rootD p x0)) m (pstep p y) := by
            rw [rootD_eq_iter, hlen, hm, iterP_succ, hstepy]
          have e2 : iterP (p.set x0 (rootD p x0)) m (pstep p y) =
              iterP (p.set x0 (rootD p x0)) k'' (pstep p y) :=
            iterP_stab _ k'' (pstep p y) hroot'' m (by omega)
          have e3 : rootD (p.set x0 (rootD p x0)) (pstep p y) =
              iterP (p.set x0 (rootD p x0)) k'' (pstep p y) := by
            rw [rootD_eq_iter, hlen]
            exact iterP_stab _ k'' (pstep p y) hroot'' p.length (by omega)
          rw [e1, e2, ← e3, hrd, rootD_pstep p h y hy]
  refine ⟨hlen, ⟨?_, ?_⟩, ?_⟩
  · intro z hz
    rw [hlen] at hz ⊢
    rw [hstep]
    by_cases hzx : z = x0
    · simp [hzx, hrlt]
    · simp only [hzx, if_false]
      exact h.1 z hz
  · intro z hz
    rw [hlen] at hz
    obtain ⟨k, hk, hroot⟩ := reach_bound p h.1 z hz (h.2 z hz)
    obtain ⟨⟨k', _, hroot'⟩, _⟩ :=
      main p.length (Nat.le_refl _) z hz ⟨k, by omega, hroot⟩
    exact ⟨k', hroot'⟩
  · intro y hy
    obtain ⟨k, hk, hroot⟩ := reach_bound p h.1 y hy (h.2 y hy)
    exact (main p.length (Nat.le_refl _) y hy ⟨k, by omega, hroot⟩).2

/-- Full specification of `UnionFind.find` under sufficient fuel: it returns
the root of `x`, preserves well-formedness, array length, every node's root,
and the rank array. -/
theorem find_spec : ∀ (fuel : Nat) (uf : UnionFind) (x : Nat),
    UFOK uf.parent → x < uf.parent.length →
    (∃ k, k ≤ fuel ∧ isRoot uf.parent (iterP uf.parent k x)) →
    (UnionFind.find fuel uf x).1 = rootD uf.parent x ∧
    (UnionFind.find fuel uf x).2.parent.length = uf.parent.length ∧
    UFOK (UnionFind.find fuel uf x).2.parent ∧
    (∀ y, y < uf.parent.length →
      rootD (UnionFind.find fuel uf x).2.parent y = rootD uf.parent y) ∧
    (UnionFind.find fuel uf x).2.rank = uf.rank := by
  intro fuel
  induction fuel with
  | zero =>
    intro uf x h hx ⟨k, hk, hroot⟩
    have hk0 : k = 0 := Nat.le_zero.mp hk
    subst hk0
    have hry : isRoot uf.parent x := hroot
    have hfind : UnionFind.find 0 uf x = (x, uf) := rfl
    rw [hfind]
    exact ⟨(rootD_of_isRoot uf.parent x hry).symm, rfl, h, fun y _ => rfl, rfl⟩
  | succ fuel ih =>
    intro uf x h hx ⟨k, hk, hroot⟩
    by_cases hry : pstep uf.parent x = x
    · have hfind : UnionFind.find (fuel + 1) uf x = (x, uf) := by
        simp only [UnionFind.find]
        rw [if_pos hry]
      rw [hfind]
      exact ⟨(rootD_of_isRoot uf.parent x hry).symm, rfl, h, fun y _ => rfl, rfl⟩
    · have hk1 : k ≠ 0 := by
        intro hk0
        subst hk0
        exact hry hroot
      have hzlt : pstep uf.parent x < uf.parent.length := h.1 x hx
      have hzroot : isRoot uf.parent (iterP uf.parent (k - 1) (pstep uf.parent x)) := by
        have heq : iterP uf.parent k x =
            iterP uf.parent (k - 1) (pstep uf.parent x) := by
          have hke : k = (k - 1) + 1 := by omega
          conv_lhs => rw [hke]
          rw [iterP_succ]
        rw [← heq]
        exact hroot
      obtain ⟨hval, hlen1, hok1, hpres1, hrank1⟩ :=
        ih uf (pstep uf.parent x) h hzlt ⟨k - 1, by omega, hzroot⟩
      have hfind : UnionFind.find (fuel + 1) uf x =
          ((UnionFind.find fuel uf (pstep uf.parent x)).1,
           ⟨(UnionFind.find fuel uf (pstep uf.parent x)).2.parent.set x
              (UnionFind.find fuel uf (pstep uf.parent x)).1,
            (UnionFind.find fuel uf (pstep uf.parent x)).2.rank⟩) := by
        simp only [UnionFind.find]
        rw [if_neg hry]
      rw [hfind]
      have hvx : (UnionFind.find fuel uf (pstep uf.parent x)).1 =
          rootD uf.parent x := by
        rw [hval, rootD_pstep uf.parent h x hx]
      have hxlt1 : x < (UnionFind.find fuel uf (pstep uf.parent x)).2.parent.length := by
        rw [hlen1]; exact hx
      have hvx1 : (UnionFind.find fuel uf (pstep uf.parent x)).1 =
          rootD (UnionFind.find fuel uf (pstep uf.parent x)).2.parent x := by
        rw [hvx, ← hpres1 x hx]
      obtain ⟨hlen2, hok2, hpres2⟩ :=
        set_root_preserve (UnionFind.find fuel uf (pstep uf.parent x)).2.parent
          hok1 x hxlt1
      refine ⟨hvx, ?_, ?_, ?_, hrank1⟩
      · show ((UnionFind.find fuel uf (pstep uf.parent x)).2.parent.set x
          (UnionFind.find fuel uf (pstep uf.parent x)).1).length = uf.parent.length
        rw [List.length_set]
        exact hlen1
      · show UFOK ((UnionFind.find fuel uf (pstep uf.parent x)).2.parent.set x
          (UnionFind.find fuel uf (pstep uf.parent x)).1)
        rw [hvx1]
        exact hok2
      · intro y hy
        show rootD ((UnionFind.find fuel uf (pstep uf.parent x)).2.parent.set x
          (UnionFind.find fuel uf (pstep uf.parent x)).1) y = rootD uf.parent y
        rw [hvx1]
        have hy1 : y < (UnionFind.find fuel uf (pstep uf.parent x)).2.parent.length := by
          rw [hlen1]; exact hy
        rw [hpres2 y hy1, hpres1 y hy]

/-- `find` with fuel `parent.length`, as the embedded algorithm always calls
it, in a well-formed state. -/
theorem find_ok (uf : UnionFind) (x : Nat) (h : UFOK uf.parent)
    (hx : x < uf.parent.length) :
    (UnionFind.find uf.parent.length uf x).1 = rootD uf.parent x ∧
    (UnionFind.find uf.parent.length uf x).2.parent.length = uf.parent.length ∧
    UFOK (UnionFind.find uf.parent.length uf x).2.parent ∧
    (∀ y, y < uf.parent.length →
      rootD (UnionFind.find uf.parent.length uf x).2.parent y =
        rootD uf.parent y) ∧
    (UnionFind.find uf.parent.length uf x).2.rank = uf.rank := by
  obtain ⟨k, hk, hroot⟩ := reach_bound uf.parent h.1 x hx (h.2 x hx)
  exact find_spec uf.parent.length uf x h hx ⟨k, by omega, hroot⟩

/-- Re-pointing one root at another keeps the state well-formed. -/
theorem link_preserve (p : List Nat) (h : UFOK p) (ra rb : Nat)
    (hra : ra < p.length) (hrb : rb < p.length)
    (hroota : isRoot p ra) (hrootb : isRoot p rb) :
    (p.set rb ra).length = p.length ∧ UFOK (p.set rb ra) := by
  have hlen : (p.set rb ra).length = p.length := List.length_set p rb ra
  have hstep : ∀ z, pstep (p.set rb ra) z = if z = rb then ra else pstep p z :=
    pstep_set p rb ra hrb
  have hroota' : isRoot (p.set rb ra) ra := by
    unfold isRoot
    rw [hstep]
    by_cases hab : ra = rb
    · simp [hab]
    · simp only [hab, if_false]
      exact hroota
  have main : ∀ k y, y < p.length → isRoot p (iterP p k y) →
      ∃ k', isRoot (p.set rb ra) (iterP (p.set rb ra) k' y) := by
    intro k
    induction k with
    | zero =>
      intro y hy hroot
      have hry : isRoot p y := hroot
      by_cases hyb : y = rb
      · subst hyb
        have hsy : pstep (p.set y ra) y = ra := by rw [hstep]; simp
        refine ⟨1, ?_⟩
        have h1 : iterP (p.set y ra) 1 y = ra := hsy
        rw [h1]
        exact hroota'
      · refine ⟨0, ?_⟩
        unfold isRoot
        rw [iterP_zero, hstep]
        simp only [hyb, if_false]
        exact hry
    | succ k ih =>
      intro y hy hroot
      by_cases hry : isRoot p y
      · by_cases hyb : y = rb
        · subst hyb
          have hsy : pstep (p.set y ra) y = ra := by rw [hstep]; simp
          refine ⟨1, ?_⟩
          have h1 : iterP (p.set y ra) 1 y = ra := hsy
          rw [h1]
          exact hroota'
        · refine ⟨0, ?_⟩
          unfold isRoot
          rw [iterP_zero, hstep]
          simp only [hyb, if_false]
          exact hry
      · have hyb : y ≠ rb := by
          intro hcontra
          exact hry (hcontra ▸ hrootb)
        have hsy : pstep (p.set rb ra) y = pstep p y := by
          rw [hstep]
          simp [hyb]
        have hzlt : pstep p y < p.length := h.1 y hy
        have hzroot : isRoot p (iterP p k (pstep p y)) := by
          rw [← iterP_succ]
          exact hroot
        obtain ⟨k', hroot'⟩ := ih (pstep p y) hzlt hzroot
        refine ⟨k' + 1, ?_⟩
        rw [iterP_succ, hsy]
        exact hroot'
  refine ⟨hlen, ?_, ?_⟩
  · intro z hz
    rw [hlen] at hz ⊢
    rw [hstep]
    by_cases hzb : z = rb
    · simp [hzb, hra]
    · simp only [hzb, if_false]
      exact h.1 z hz
  · intro z hz
    rw [hlen] at hz
    obtain ⟨k, hroot⟩ := h.2 z hz
    exact main k z hz hroot

/-- `UnionFind.union` keeps the state well-formed and the array length. -/
theorem union_preserve (uf : UnionFind) (h : UFOK uf.parent) (x y : Nat)
    (hx : x < uf.parent.length) (hy : y < uf.parent.length) :
    (uf.union x y).parent.length = uf.parent.length ∧
    UFOK (uf.union x y).parent := by
  obtain ⟨hv1, hlen1, hok1, hpres1, hrank1⟩ := find_ok uf x h hx
  have hy1 : y < (UnionFind.find uf.parent.length uf x).2.parent.length := by
    rw [hlen1]; exact hy
  obtain ⟨hv2, hlen2, hok2, hpres2, hrank2⟩ :=
    find_ok (UnionFind.find uf.parent.length uf x).2 y hok1 hy1
  set F1 := UnionFind.find uf.parent.length uf x with hF1
  set F2 := UnionFind.find F1.2.parent.length F1.2 y with hF2
  have hlen21 : F2.2.parent.length = uf.parent.length := hlen2.trans hlen1
  have hr1lt : F1.1 < uf.parent.length := by
    rw [hv1]
    exact rootD_lt uf.parent h.1 x hx
  have hr2lt : F2.1 < uf.parent.length := by
    rw [hv2, hpres1 y hy]
    exact rootD_lt uf.parent h.1 y hy
  have hr1fix : rootD F2.2.parent F1.1 = F1.1 := by
    have e1 : rootD F2.2.parent F1.1 = rootD F1.2.parent F1.1 := by
      apply hpres2
      rw [hlen1]
      exact hr1lt
    have e2 : rootD F1.2.parent F1.1 = rootD uf.parent F1.1 := hpres1 _ hr1lt
    have e3 : rootD uf.parent F1.1 = F1.1 := by
      rw [hv1]
      exact rootD_of_isRoot uf.parent _ (rootD_isRoot uf.parent h x hx)
    rw [e1, e2, e3]
  have hr2fix : rootD F2.2.parent F2.1 = F2.1 := by
    have e1 : rootD F2.2.parent F2.1 = rootD F1.2.parent F2.1 := by
      apply hpres2
      rw [hlen1]
      exact hr2lt
    have e2 : rootD F1.2.parent F2.1 = rootD uf.parent F2.1 := hpres1 _ hr2lt
    have e3 : rootD uf.parent F2.1 = F2.1 := by
      have hv2' : F2.1 = rootD uf.parent y := by rw [hv2, hpres1 y hy]
      rw [hv2']
      exact rootD_of_isRoot uf.parent _ (rootD_isRoot uf.parent h y hy)
    rw [e1, e2, e3]
  have hr1lt2 : F1.1 < F2.2.parent.length := by rw [hlen21]; exact hr1lt
  have hr2lt2 : F2.1 < F2.2.parent.length := by rw [hlen21]; exact hr2lt
  have hr1root : isRoot F2.2.parent F1.1 := by
    have := rootD_isRoot F2.2.parent hok2 F1.1 hr1lt2
    rwa [hr1fix] at this
  have hr2root : isRoot F2.2.parent F2.1 := by
    have := rootD_isRoot F2.2.parent hok2 F2.1 hr2lt2
    rwa [hr2fix] at this
  have hxy : uf.union x y =
      (if F1.1 = F2.1 then F2.2
       else if F2.2.rank.getD F1.1 0 < F2.2.rank.getD F2.1 0 then
         ⟨F2.2.parent.set F1.1 F2.1, F2.2.rank⟩
       else if F2.2.rank.getD F2.1 0 < F2.2.rank.getD F1.1 0 then
         ⟨F2.2.parent.set F2.1 F1.1, F2.2.rank⟩
       else
         ⟨F2.2.parent.set F2.1 F1.1,
           F2.2.rank.set F1.1 (F2.2.rank.getD F1.1 0 + 1)⟩) := rfl
  rw [hxy]
  by_cases heq : F1.1 = F2.1
  · simp only [heq, if_pos]
    exact ⟨hlen21, hok2⟩
  · simp only [heq, if_false]
    by_cases hrk1 : F2.2.rank.getD F1.1 0 < F2.2.rank.getD F2.1 0
    · simp only [hrk1, if_pos]
      obtain ⟨hl, hok⟩ := link_preserve F2.2.parent hok2 F2.1 F1.1
        hr2lt2 hr1lt2 hr2root hr1root
      exact ⟨hl.trans hlen21, hok⟩
    · simp only [hrk1, if_false]
      by_cases hrk2 : F2.2.rank.getD F2.1 0 < F2.2.rank.getD F1.1 0
      · simp only [hrk2, if_pos]
        obtain ⟨hl, hok⟩ := link_preserve F2.2.parent hok2 F1.1 F2.1
          hr1lt2 hr2lt2 hr1root hr2root
        exact ⟨hl.trans hlen21, hok⟩
      · simp only [hrk2, if_false]
        obtain ⟨hl, hok⟩ := link_preserve F2.2.parent hok2 F1.1 F2.1
          hr1lt2 hr2lt2 hr1root hr2root
        exact ⟨hl.trans hlen21, hok⟩

/-- Python `str.lower()` (ASCII fragment). -/
def strLower (s : String) : String := String.mk (s.toList.map Char.toLower)

/-- The unordered index pairs `(i, j)`, `i < j`, in the order of the nested
loops `for i in range(n): for j in range(i+1, n):`. -/
def pairs (n : Nat) : List (Nat × Nat) :=
  (List.range n).flatMap (fun i =>
    ((List.range n).filter (fun j => decide (i < j))).map (fun j => (i, j)))

/-- One iteration of pass 1 of `process_author_group` (lines 177-184): union
the pair when both affiliations are non-empty and equal case-insensitively,
recording the pair in `checked_pairs`. -/
def pag1Step (affs : List String) (st : UnionFind × List (Nat × Nat))
    (ij : Nat × Nat) : UnionFind × List (Nat × Nat) :=
  let aff_i := affs.getD ij.1 ""
  let aff_j := affs.getD ij.2 ""
  if aff_i ≠ "" ∧ aff_j ≠ "" ∧ strLower aff_i = strLower aff_j then
    (st.1.union ij.1 ij.2, st.2 ++ [ij])
  else st

/-- Pass 1 of `process_author_group`: the exact-match merging loop. -/
def pagPass1 (affs : List String) : UnionFind × List (Nat × Nat) :=
  (pairs affs.length).foldl (pag1Step affs) (ufInit affs.length, [])

/-- Pass 2 of `process_author_group` (lines 190-216): for every pair not
already checked and not already in the same class (the two `find` calls
compress paths and are kept in the state), consult the oracle verdict
`judge i j` — the boolean returned by
`are_authors_same(aff_i, aff_j, author_name, model_endpoint)` for that pair —
and union on a "same" verdict. -/
def pag2Step (judge : Nat → Nat → Bool) (checked : List (Nat × Nat))
    (uf : UnionFind) (ij : Nat × Nat) : UnionFind :=
  if ij ∈ checked then uf
  else
    let f1 := UnionFind.find uf.parent.length uf ij.1
    let f2 := UnionFind.find f1.2.parent.length f1.2 ij.2
    if f1.1 = f2.1 then f2.2
    else if judge ij.1 ij.2 then f2.2.union ij.1 ij.2
    else f2.2

def pagPass2 (affs : List String) (judge : Nat → Nat → Bool)
    (uf0 : UnionFind) (checked : List (Nat × Nat)) : UnionFind :=
  (pairs affs.length).foldl (pag2Step judge checked) uf0

/-- The union-find state after both merging passes. -/
def pagPasses (affs : List String) (judge : Nat → Nat → Bool) : UnionFind :=
  pagPass2 affs judge (pagPass1 affs).1 (pagPass1 affs).2

/-- The root of each record after both merging passes, in record order. -/
def groupRoots (affs : List String) (judge : Nat → Nat → Bool) : List Nat :=
  (List.range affs.length).map (fun i => rootD (pagPasses affs judge).parent i)

/-- Step 3a of `process_author_group` (lines 224-239): scan the records in
order, allocating `next_id` to each root not yet in `group_ids`. -/
def pagAStep (st : UnionFind × List (Nat × Nat) × Nat) (i : Nat) :
    UnionFind × List (Nat × Nat) × Nat :=
  let f := UnionFind.find st.1.parent.length st.1 i
  if pyMem st.2.1 f.1 then (f.2, st.2.1, st.2.2)
  else (f.2, pySet st.2.1 f.1 st.2.2, st.2.2 + 1)

def pagAssign (n : Nat) (uf : UnionFind) : UnionFind × List (Nat × Nat) × Nat :=
  (List.range n).foldl pagAStep (uf, [], 0)

/-- Step 3b of `process_author_group` (lines 241-243): look every record's
root up in `group_ids` (`none` models a KeyError). -/
def pagIStep (group_ids : List (Nat × Nat)) (st : UnionFind × List Nat)
    (i : Nat) : Option (UnionFind × List Nat) := do
  let f := UnionFind.find st.1.parent.length st.1 i
  let gid ← pyGet group_ids f.1
  pure (f.2, st.2 ++ [gid])

def pagIds (n : Nat) (uf : UnionFind) (group_ids : List (Nat × Nat)) :
    Option (UnionFind × List Nat) :=
  (List.range n).foldlM (pagIStep group_ids) (uf, ([] : List Nat))

/-- `process_author_group(author_df, model_endpoint)` (lines 161-252),
projected onto the `AuthorID` column it assigns: a single record
short-circuits to `[0]`; otherwise the two merging passes run, then
`group_ids` is built in first-seen root order and each record receives its
root's group id. -/
def process_author_group (affs : List String) (judge : Nat → Nat → Bool) :
    Option (List Nat) :=
  if affs.length = 1 then some [0]
  else
    let uf2 := pagPasses affs judge
    let st3 := pagAssign affs.length uf2
    (pagIds affs.length st3.1 st3.2.1).map (fun st => st.2)

/-- First-seen deduplication of a list (for roots: the order group leaders
are first encountered; for PMIDs: the order identifiers first occur). -/
def fsAux {α : Type} [DecidableEq α] : List α → List α → List α
  | _, [] => []
  | seen, x :: t => if x ∈ seen then fsAux seen t else x :: fsAux (x :: seen) t

def firstSeenL {α : Type} [DecidableEq α] (l : List α) : List α := fsAux [] l

/-- The canonical renumbering of a list: each element replaced by the index of
its first occurrence among the distinct values in first-seen order — i.e.
group identities are integers starting at 0, handed out in the order the
distinct values (group leaders) first appear. -/
def canonicalOf (l : List Nat) : List Nat :=
  l.map (fun x => List.indexOf x (firstSeenL l))

/-- The association list mapping each entry of `l` to its position, starting
at `k` (the shape `group_ids` takes). -/
def idxAssoc : List Nat → Nat → List (Nat × Nat)
  | [], _ => []
  | x :: t, k => (x, k) :: idxAssoc t (k + 1)


theorem pstep_range (n x : Nat) : pstep (List.range n) x = x := by
  unfold pstep
  rcases Nat.lt_or_ge x n with h | h
  · simp [List.getD, List.getElem?_range, h]
  · have hnone : (List.range n)[x]? = none := by
      rw [List.getElem?_eq_none_iff]
      simpa using h
    simp [List.getD, hnone]

theorem ufInit_ok (n : Nat) :
    (ufInit n).parent.length = n ∧ UFOK (ufInit n).parent := by
  refine ⟨by simp [ufInit], ⟨?_, ?_⟩⟩
  · intro x hx
    have hx' : x < n := by simpa [ufInit] using hx
    show pstep (List.range n) x < (List.range n).length
    rw [pstep_range]
    simpa using hx'
  · intro x _
    exact ⟨0, pstep_range n x⟩

theorem pairs_mem (n : Nat) (ij : Nat × Nat) (h : ij ∈ pairs n) :
    ij.1 < n ∧ ij.2 < n := by
  unfold pairs at h
  simp only [List.mem_flatMap, List.mem_map, List.mem_filter,
    List.mem_range, decide_eq_true_eq] at h
  obtain ⟨i, hi, j, ⟨hj, _⟩, rfl⟩ := h
  exact ⟨hi, hj⟩

theorem pag1Step_ok (affs : List String) (st : UnionFind × List (Nat × Nat))
    (ij : Nat × Nat) (hi : ij.1 < affs.length) (hj : ij.2 < affs.length)
    (h1 : st.1.parent.length = affs.length) (h2 : UFOK st.1.parent) :
    (pag1Step affs st ij).1.parent.length = affs.length ∧
    UFOK (pag1Step affs st ij).1.parent := by
  simp only [pag1Step]
  by_cases hcond : affs.getD ij.1 "" ≠ "" ∧ affs.getD ij.2 "" ≠ "" ∧
      strLower (affs.getD ij.1 "") = strLower (affs.getD ij.2 "")
  · rw [if_pos hcond]
    obtain ⟨hl, hok⟩ := union_preserve st.1 h2 ij.1 ij.2
      (by rw [h1]; exact hi) (by rw [h1]; exact hj)
    exact ⟨hl.trans h1, hok⟩
  · rw [if_neg hcond]
    exact ⟨h1, h2⟩

theorem pag2Step_ok (affs : List String) (judge : Nat → Nat → Bool)
    (checked : List (Nat × Nat)) (uf : UnionFind) (ij : Nat × Nat)
    (hi : ij.1 < affs.length) (hj : ij.2 < affs.length)
    (h1 : uf.parent.length = affs.length) (h2 : UFOK uf.parent) :
    (pag2Step judge checked uf ij).parent.length = affs.length ∧
    UFOK (pag2Step judge checked uf ij).parent := by
  simp only [pag2Step]
  by_cases hchk : ij ∈ checked
  · rw [if_pos hchk]
    exact ⟨h1, h2⟩
  · rw [if_neg hchk]
    obtain ⟨hv1, hlen1, hok1, _, _⟩ :=
      find_ok uf ij.1 h2 (by rw [h1]; exact hi)
    obtain ⟨hv2, hlen2, hok2, _, _⟩ :=
      find_ok (UnionFind.find uf.parent.length uf ij.1).2 ij.2 hok1
        (by rw [hlen1, h1]; exact hj)
    have hlen21 :
        (UnionFind.find (UnionFind.find uf.parent.length uf ij.1).2.parent.length
          (UnionFind.find uf.parent.length uf ij.1).2 ij.2).2.parent.length =
          affs.length := by
      rw [hlen2, hlen1, h1]
    by_cases heq : (UnionFind.find uf.parent.length uf ij.1).1 =
        (UnionFind.find (UnionFind.find uf.parent.length uf ij.1).2.parent.length
          (UnionFind.find uf.parent.length uf ij.1).2 ij.2).1
    · rw [if_pos heq]
      exact ⟨hlen21, hok2⟩
    · rw [if_neg heq]
      by_cases hjudge : judge ij.1 ij.2
      · rw [if_pos hjudge]
        obtain ⟨hlu, hoku⟩ := union_preserve _ hok2 ij.1 ij.2
          (by rw [hlen21]; exact hi) (by rw [hlen21]; exact hj)
        exact ⟨hlu.trans hlen21, hoku⟩
      · rw [if_neg hjudge]
        exact ⟨hlen21, hok2⟩

theorem pagPasses_ok (affs : List String) (judge : Nat → Nat → Bool) :
    (pagPasses affs judge).parent.length = affs.length ∧
    UFOK (pagPasses affs judge).parent := by
  have gen1 : ∀ (l : List (Nat × Nat)) (st : UnionFind × List (Nat × Nat)),
      (∀ ij ∈ l, ij.1 < affs.length ∧ ij.2 < affs.length) →
      st.1.parent.length = affs.length → UFOK st.1.parent →
      (l.foldl (pag1Step affs) st).1.parent.length = affs.length ∧
      UFOK (l.foldl (pag1Step affs) st).1.parent := by
    intro l
    induction l with
    | nil => intro st _ ha hb; exact ⟨ha, hb⟩
    | cons ij t ih =>
      intro st hmem ha hb
      have hij := hmem ij (List.mem_cons_self ij t)
      obtain ⟨ha', hb'⟩ := pag1Step_ok affs st ij hij.1 hij.2 ha hb
      exact ih _ (fun x hx => hmem x (List.mem_cons_of_mem ij hx)) ha' hb'
  have gen2 : ∀ (l : List (Nat × Nat)) (checked : List (Nat × Nat)) (uf : UnionFind),
      (∀ ij ∈ l, ij.1 < affs.length ∧ ij.2 < affs.length) →
      uf.parent.length = affs.length → UFOK uf.parent →
      (l.foldl (pag2Step judge checked) uf).parent.length = affs.length ∧
      UFOK (l.foldl (pag2Step judge checked) uf).parent := by
    intro l
    induction l with
    | nil => intro checked uf _ ha hb; exact ⟨ha, hb⟩
    | cons ij t ih =>
      intro checked uf hmem ha hb
      have hij := hmem ij (List.mem_cons_self ij t)
      obtain ⟨ha', hb'⟩ := pag2Step_ok affs judge checked uf ij hij.1 hij.2 ha hb
      exact ih checked _ (fun x hx => hmem x (List.mem_cons_of_mem ij hx)) ha' hb'
  have h1 : (pagPass1 affs).1.parent.length = affs.length ∧
      UFOK (pagPass1 affs).1.parent := by
    unfold pagPass1
    exact gen1 (pairs affs.length) (ufInit affs.length, [])
      (fun ij h => pairs_mem affs.length ij h)
      (ufInit_ok affs.length).1 (ufInit_ok affs.length).2
  unfold pagPasses pagPass2
  exact gen2 (pairs affs.length) (pagPass1 affs).2 (pagPass1 affs).1
    (fun ij h => pairs_mem affs.length ij h) h1.1 h1.2

theorem pyGet_cons {κ α : Type} [BEq κ] (k' : κ) (v' : α) (t : List (κ × α))
    (k : κ) :
    pyGet ((k', v') :: t) k = if k' == k then some v' else pyGet t k := by
  unfold pyGet
  rw [List.find?_cons]
  by_cases h : (k' == k)
  · simp [h]
  · simp [h]

theorem pySet_not_mem {κ α : Type} [BEq κ] (d : List (κ × α)) (k : κ) (v : α)
    (h : pyGet d k = none) : pySet d k v = d ++ [(k, v)] := by
  induction d with
  | nil => rfl
  | cons kv t ih =>
    rw [pyGet_cons] at h
    by_cases hk : (kv.1 == k)
    · simp [hk] at h
    · have ht : pyGet t k = none := by
        simpa [hk] using h
      show pySet (kv :: t) k v = kv :: t ++ [(k, v)]
      cases kv with
      | mk k' v' =>
        simp only [pySet, hk, if_false]
        rw [ih ht]
        rfl

theorem fsAux_mem {α : Type} [DecidableEq α] (l : List α) :
    ∀ (seen : List α) (y : α),
    y ∈ fsAux seen l ↔ (y ∈ l ∧ y ∉ seen) := by
  induction l with
  | nil => intro seen y; simp [fsAux]
  | cons x t ih =>
    intro seen y
    by_cases hx : x ∈ seen
    · simp only [fsAux, hx, if_pos]
      rw [ih seen y]
      constructor
      · rintro ⟨hy, hns⟩
        exact ⟨List.mem_cons_of_mem x hy, hns⟩
      · rintro ⟨hy, hns⟩
        rcases List.mem_cons.mp hy with rfl | hy'
        · exact absurd hx hns
        · exact ⟨hy', hns⟩
    · simp only [fsAux, hx, if_neg, if_false]
      constructor
      · intro hy
        rcases List.mem_cons.mp hy with rfl | hy'
        · exact ⟨List.mem_cons_self y t, hx⟩
        · obtain ⟨h1, h2⟩ := (ih (x :: seen) y).mp hy'
          have : y ∉ seen := fun hc => h2 (List.mem_cons_of_mem x hc)
          exact ⟨List.mem_cons_of_mem x h1, this⟩
      · rintro ⟨hy, hns⟩
        by_cases hyx : y = x
        · subst hyx
          exact List.mem_cons_self y _
        · rcases List.mem_cons.mp hy with rfl | hy'
          · exact absurd rfl hyx
          · apply List.mem_cons_of_mem
            apply (ih (x :: seen) y).mpr
            refine ⟨hy', ?_⟩
            intro hc
            rcases List.mem_cons.mp hc with rfl | hc'
            · exact hyx rfl
            · exact hns hc'

theorem fsAux_cons_mem {α : Type} [DecidableEq α] (seen : List α) (a : α)
    (t : List α)
    (h : a ∈ seen) : fsAux seen (a :: t) = fsAux seen t := by
  simp [fsAux, h]

theorem fsAux_cons_not_mem {α : Type} [DecidableEq α] (seen : List α) (a : α)
    (t : List α)
    (h : a ∉ seen) : fsAux seen (a :: t) = a :: fsAux (a :: seen) t := by
  simp [fsAux, h]

theorem fsAux_append {α : Type} [DecidableEq α] (l : List α) :
    ∀ (seen : List α) (x : α),
    fsAux seen (l ++ [x]) =
      fsAux seen l ++ (if x ∈ seen ∨ x ∈ l then [] else [x]) := by
  induction l with
  | nil =>
    intro seen x
    by_cases hx : x ∈ seen
    · simp [fsAux, hx]
    · simp [fsAux, hx]
  | cons a t ih =>
    intro seen x
    have hstep : (a :: t) ++ [x] = a :: (t ++ [x]) := rfl
    by_cases ha : a ∈ seen
    · rw [hstep, fsAux_cons_mem _ _ _ ha, fsAux_cons_mem _ _ _ ha, ih seen x]
      congr 1
      by_cases hx1 : x ∈ seen ∨ x ∈ t
      · rw [if_pos hx1, if_pos]
        rcases hx1 with h | h
        · exact Or.inl h
        · exact Or.inr (List.mem_cons_of_mem a h)
      · rw [if_neg hx1, if_neg]
        intro hc
        rcases hc with h | h
        · exact hx1 (Or.inl h)
        · rcases List.mem_cons.mp h with rfl | h'
          · exact hx1 (Or.inl ha)
          · exact hx1 (Or.inr h')
    · rw [hstep, fsAux_cons_not_mem _ _ _ ha, fsAux_cons_not_mem _ _ _ ha,
        ih (a :: seen) x, List.cons_append]
      congr 2
      by_cases hx1 : x ∈ a :: seen ∨ x ∈ t
      · rw [if_pos hx1, if_pos]
        rcases hx1 with h | h
        · rcases List.mem_cons.mp h with rfl | h'
          · exact Or.inr (List.mem_cons_self x t)
          · exact Or.inl h'
        · exact Or.inr (List.mem_cons_of_mem a h)
      · rw [if_neg hx1, if_neg]
        intro hc
        rcases hc with h | h
        · exact hx1 (Or.inl (List.mem_cons_of_mem a h))
        · rcases List.mem_cons.mp h with rfl | h'
          · exact hx1 (Or.inl (List.mem_cons_self x seen))
          · exact hx1 (Or.inr h')

theorem idxAssoc_get (l : List Nat) : ∀ (k x : Nat),
    pyGet (idxAssoc l k) x =
      if x ∈ l then some (k + List.indexOf x l) else none := by
  induction l with
  | nil => intro k x; simp [idxAssoc, pyGet]
  | cons a t ih =>
    intro k x
    simp only [idxAssoc]
    rw [pyGet_cons]
    by_cases hax : (a == x)
    · have hax' : a = x := by simpa using hax
      subst hax'
      simp [List.indexOf_cons_self, List.mem_cons]
    · have hax' : a ≠ x := by simpa using hax
      rw [if_neg (by simpa using hax), ih (k + 1) x]
      by_cases hx : x ∈ t
      · rw [if_pos hx, if_pos (List.mem_cons_of_mem a hx)]
        rw [List.indexOf_cons_ne _ (by simpa using hax)]
        congr 1
        omega
      · rw [if_neg hx, if_neg]
        intro hc
        rcases List.mem_cons.mp hc with rfl | h'
        · exact hax' rfl
        · exact hx h'

theorem idxAssoc_append (l : List Nat) : ∀ (k x : Nat),
    idxAssoc (l ++ [x]) k = idxAssoc l k ++ [(x, k + l.length)] := by
  induction l with
  | nil => intro k x; simp [idxAssoc]
  | cons a t ih =>
    intro k x
    show (a, k) :: idxAssoc (t ++ [x]) (k + 1) =
      (a, k) :: idxAssoc t (k + 1) ++ [(x, k + (a :: t).length)]
    rw [ih (k + 1) x]
    have harith : k + 1 + t.length = k + (a :: t).length := by
      simp only [List.length_cons]
      omega
    rw [harith]
    rfl

/-- The root of record `i` after the merging passes. -/
def pagRoot (affs : List String) (judge : Nat → Nat → Bool) (i : Nat) : Nat :=
  rootD (pagPasses affs judge).parent i

theorem groupRoots_eq (affs : List String) (judge : Nat → Nat → Bool) :
    groupRoots affs judge =
      (List.range affs.length).map (pagRoot affs judge) := rfl

theorem pagA_gen (affs : List String) (judge : Nat → Nat → Bool) :
    ∀ (l pr : List Nat) (st : UnionFind × List (Nat × Nat) × Nat),
    (∀ i ∈ l, i < affs.length) →
    st.1.parent.length = affs.length → UFOK st.1.parent →
    (∀ y, y < affs.length →
      rootD st.1.parent y = rootD (pagPasses affs judge).parent y) →
    st.2.1 = idxAssoc (firstSeenL (pr.map (pagRoot affs judge))) 0 →
    st.2.2 = (firstSeenL (pr.map (pagRoot affs judge))).length →
    (l.foldl pagAStep st).1.parent.length = affs.length ∧
    UFOK (l.foldl pagAStep st).1.parent ∧
    (∀ y, y < affs.length →
      rootD (l.foldl pagAStep st).1.parent y =
        rootD (pagPasses affs judge).parent y) ∧
    (l.foldl pagAStep st).2.1 =
      idxAssoc (firstSeenL ((pr ++ l).map (pagRoot affs judge))) 0 ∧
    (l.foldl pagAStep st).2.2 =
      (firstSeenL ((pr ++ l).map (pagRoot affs judge))).length := by
  intro l
  induction l with
  | nil =>
    intro pr st _ h1 h2 h3 h4 h5
    simpa using ⟨h1, h2, h3, h4, h5⟩
  | cons i t ih =>
    intro pr st hmem h1 h2 h3 h4 h5
    have hi : i < affs.length := hmem i (List.mem_cons_self i t)
    have htail := fun x hx => hmem x (List.mem_cons_of_mem i hx)
    obtain ⟨hv, hlenf, hokf, hpresf, _⟩ :=
      find_ok st.1 i h2 (by rw [h1]; exact hi)
    have hv' : (UnionFind.find st.1.parent.length st.1 i).1 =
        pagRoot affs judge i := by
      rw [hv, h3 i hi]
      rfl
    have hnext3 : ∀ y, y < affs.length →
        rootD (UnionFind.find st.1.parent.length st.1 i).2.parent y =
          rootD (pagPasses affs judge).parent y := by
      intro y hy
      rw [hpresf y (by rw [h1]; exact hy), h3 y hy]
    have hmaps : (pr ++ [i]).map (pagRoot affs judge) =
        pr.map (pagRoot affs judge) ++ [pagRoot affs judge i] := by
      rw [List.map_append]
      rfl
    have hfs : firstSeenL ((pr ++ [i]).map (pagRoot affs judge)) =
        firstSeenL (pr.map (pagRoot affs judge)) ++
          (if pagRoot affs judge i ∈ pr.map (pagRoot affs judge) then []
           else [pagRoot affs judge i]) := by
      rw [hmaps]
      unfold firstSeenL
      rw [fsAux_append]
      congr 1
      by_cases hin : pagRoot affs judge i ∈ pr.map (pagRoot affs judge)
      · rw [if_pos hin, if_pos (Or.inr hin)]
      · rw [if_neg hin, if_neg]
        intro hc
        rcases hc with h | h
        · simp at h
        · exact hin h
    have hget : pyGet st.2.1 (pagRoot affs judge i) =
        if pagRoot affs judge i ∈ firstSeenL (pr.map (pagRoot affs judge)) then
          some (List.indexOf (pagRoot affs judge i)
            (firstSeenL (pr.map (pagRoot affs judge))))
        else none := by
      rw [h4, idxAssoc_get]
      by_cases hin : pagRoot affs judge i ∈
          firstSeenL (pr.map (pagRoot affs judge))
      · rw [if_pos hin, if_pos hin, Nat.zero_add]
      · rw [if_neg hin, if_neg hin]
    have hfsmem : pagRoot affs judge i ∈
        firstSeenL (pr.map (pagRoot affs judge)) ↔
        pagRoot affs judge i ∈ pr.map (pagRoot affs judge) := by
      unfold firstSeenL
      rw [fsAux_mem]
      simp
    have hstep : t.foldl pagAStep (pagAStep st i) =
        (i :: t).foldl pagAStep st := rfl
    rw [← hstep] at *
    by_cases hin : pagRoot affs judge i ∈ pr.map (pagRoot affs judge)
    · have hmem2 : pyMem st.2.1
          ((UnionFind.find st.1.parent.length st.1 i).1) = true := by
        unfold pyMem
        rw [hv', hget, if_pos (hfsmem.mpr hin)]
        rfl
      have hstA : pagAStep st i =
          ((UnionFind.find st.1.parent.length st.1 i).2, st.2.1, st.2.2) := by
        unfold pagAStep
        rw [if_pos hmem2]
      rw [hstA]
      have hres := ih (pr ++ [i])
        ((UnionFind.find st.1.parent.length st.1 i).2, st.2.1, st.2.2)
        htail (by rw [hlenf, h1]) hokf hnext3
        (by rw [hfs, if_pos hin, List.append_nil, h4])
        (by rw [hfs, if_pos hin, List.append_nil, h5])
      rwa [List.append_assoc, List.singleton_append] at hres
    · have hmem2 : pyMem st.2.1
          ((UnionFind.find st.1.parent.length st.1 i).1) = false := by
        unfold pyMem
        rw [hv', hget, if_neg (fun hc => hin (hfsmem.mp hc))]
        rfl
      have hnone : pyGet st.2.1
          ((UnionFind.find st.1.parent.length st.1 i).1) = none := by
        rw [hv', hget, if_neg (fun hc => hin (hfsmem.mp hc))]
      have hstA : pagAStep st i =
          ((UnionFind.find st.1.parent.length st.1 i).2,
            st.2.1 ++ [((UnionFind.find st.1.parent.length st.1 i).1, st.2.2)],
            st.2.2 + 1) := by
        unfold pagAStep
        rw [if_neg (by rw [hmem2]; exact Bool.false_ne_true)]
        rw [pySet_not_mem _ _ _ hnone]
      rw [hstA]
      have hgids' : st.2.1 ++
          [((UnionFind.find st.1.parent.length st.1 i).1, st.2.2)] =
          idxAssoc (firstSeenL ((pr ++ [i]).map (pagRoot affs judge))) 0 := by
        rw [hfs, if_neg hin, h4, h5, hv', idxAssoc_append, Nat.zero_add]
      have hnid' : st.2.2 + 1 =
          (firstSeenL ((pr ++ [i]).map (pagRoot affs judge))).length := by
        rw [hfs, if_neg hin, h5, List.length_append, List.length_singleton]
      have hres := ih (pr ++ [i])
        ((UnionFind.find st.1.parent.length st.1 i).2,
          st.2.1 ++ [((UnionFind.find st.1.parent.length st.1 i).1, st.2.2)],
          st.2.2 + 1)
        htail (by rw [hlenf, h1]) hokf hnext3 hgids' hnid'
      rwa [List.append_assoc, List.singleton_append] at hres

theorem pagI_gen (affs : List String) (judge : Nat → Nat → Bool) :
    ∀ (l pr : List Nat) (st : UnionFind × List Nat),
    (∀ i ∈ l, i < affs.length) →
    st.1.parent.length = affs.length → UFOK st.1.parent →
    (∀ y, y < affs.length →
      rootD st.1.parent y = rootD (pagPasses affs judge).parent y) →
    st.2 = pr.map (fun i => List.indexOf (pagRoot affs judge i)
      (firstSeenL (groupRoots affs judge))) →
    ∃ st', l.foldlM
        (pagIStep (idxAssoc (firstSeenL (groupRoots affs judge)) 0)) st =
        some st' ∧
      st'.2 = (pr ++ l).map (fun i => List.indexOf (pagRoot affs judge i)
        (firstSeenL (groupRoots affs judge))) := by
  intro l
  induction l with
  | nil =>
    intro pr st _ h1 h2 h3 h4
    exact ⟨st, rfl, by simpa using h4⟩
  | cons i t ih =>
    intro pr st hmem h1 h2 h3 h4
    have hi : i < affs.length := hmem i (List.mem_cons_self i t)
    have htail := fun x hx => hmem x (List.mem_cons_of_mem i hx)
    obtain ⟨hv, hlenf, hokf, hpresf, _⟩ :=
      find_ok st.1 i h2 (by rw [h1]; exact hi)
    have hv' : (UnionFind.find st.1.parent.length st.1 i).1 =
        pagRoot affs judge i := by
      rw [hv, h3 i hi]
      rfl
    have hrmem : pagRoot affs judge i ∈ firstSeenL (groupRoots affs judge) := by
      unfold firstSeenL
      rw [fsAux_mem]
      refine ⟨?_, by simp⟩
      rw [groupRoots_eq]
      exact List.mem_map.mpr ⟨i, List.mem_range.mpr hi, rfl⟩
    have hget : pyGet (idxAssoc (firstSeenL (groupRoots affs judge)) 0)
        ((UnionFind.find st.1.parent.length st.1 i).1) =
        some (List.indexOf (pagRoot affs judge i)
          (firstSeenL (groupRoots affs judge))) := by
      rw [hv', idxAssoc_get, if_pos hrmem, Nat.zero_add]
    have hstI : pagIStep (idxAssoc (firstSeenL (groupRoots affs judge)) 0) st i =
        some ((UnionFind.find st.1.parent.length st.1 i).2,
          st.2 ++ [List.indexOf (pagRoot affs judge i)
            (firstSeenL (groupRoots affs judge))]) := by
      show (do
        let gid ← pyGet (idxAssoc (firstSeenL (groupRoots affs judge)) 0)
          (UnionFind.find st.1.parent.length st.1 i).1
        pure ((UnionFind.find st.1.parent.length st.1 i).2, st.2 ++ [gid])) =
        some ((UnionFind.find st.1.parent.length st.1 i).2,
          st.2 ++ [List.indexOf (pagRoot affs judge i)
            (firstSeenL (groupRoots affs judge))])
      rw [hget]
      rfl
    have hnext3 : ∀ y, y < affs.length →
        rootD (UnionFind.find st.1.parent.length st.1 i).2.parent y =
          rootD (pagPasses affs judge).parent y := by
      intro y hy
      rw [hpresf y (by rw [h1]; exact hy), h3 y hy]
    have hids' : st.2 ++ [List.indexOf (pagRoot affs judge i)
        (firstSeenL (groupRoots affs judge))] =
        (pr ++ [i]).map (fun j => List.indexOf (pagRoot affs judge j)
          (firstSeenL (groupRoots affs judge))) := by
      rw [List.map_append, h4]
      rfl
    obtain ⟨st', hfold, hst'⟩ := ih (pr ++ [i])
      ((UnionFind.find st.1.parent.length st.1 i).2,
        st.2 ++ [List.indexOf (pagRoot affs judge i)
          (firstSeenL (groupRoots affs judge))])
      htail (by rw [hlenf, h1]) hokf hnext3 hids'
    refine ⟨st', ?_, ?_⟩
    · rw [List.foldlM_cons, hstI]
      simpa using hfold
    · rwa [List.append_assoc, List.singleton_append] at hst'

theorem pag_assign_ids (affs : List String) (judge : Nat → Nat → Bool) :
    (pagIds affs.length (pagAssign affs.length (pagPasses affs judge)).1
      (pagAssign affs.length (pagPasses affs judge)).2.1).map (fun st => st.2) =
      some (canonicalOf (groupRoots affs judge)) := by
  have hun : pagAssign affs.length (pagPasses affs judge) =
      (List.range affs.length).foldl pagAStep (pagPasses affs judge, [], 0) := rfl
  rw [hun]
  obtain ⟨hlen, hok⟩ := pagPasses_ok affs judge
  have hA := pagA_gen affs judge (List.range affs.length) []
    (pagPasses affs judge, [], 0)
    (fun i hi => List.mem_range.mp hi) hlen hok
    (fun y _ => rfl)
    (by simp [firstSeenL, fsAux, idxAssoc])
    (by simp [firstSeenL, fsAux])
  obtain ⟨hA1, hA2, hA3, hA4, hA5⟩ := hA
  have hgr : (([] : List Nat) ++ List.range affs.length).map
      (pagRoot affs judge) = groupRoots affs judge := by
    rw [List.nil_append, groupRoots_eq]
  rw [hgr] at hA4 hA5
  have hI := pagI_gen affs judge (List.range affs.length) []
    (((List.range affs.length).foldl pagAStep (pagPasses affs judge, [], 0)).1, [])
    (fun i hi => List.mem_range.mp hi) hA1 hA2 hA3 (by simp)
  obtain ⟨st', hfold, hst'⟩ := hI
  have hpag : pagIds affs.length
      ((List.range affs.length).foldl pagAStep (pagPasses affs judge, [], 0)).1
      ((List.range affs.length).foldl pagAStep (pagPasses affs judge, [], 0)).2.1 =
      some st' := by
    unfold pagIds
    rw [hA4]
    exact hfold
  rw [hpag]
  have hcanon : canonicalOf (groupRoots affs judge) =
      (([] : List Nat) ++ List.range affs.length).map
        (fun i => List.indexOf (pagRoot affs judge i)
          (firstSeenL (groupRoots affs judge))) := by
    rw [List.nil_append]
    unfold canonicalOf
    rw [groupRoots_eq, List.map_map]
    rfl
  rw [hcanon, ← hst']
  rfl

/- ------------------------------------------------------------------
   Claim theorems
   ------------------------------------------------------------------ -/

/-- Claim C1 (code bug): the field-level merge does NOT keep the old record's
value for fields that are empty in the new record.  At the failing input —
an existing record with PMID "1" and Journal "Surgery" merged with a new
record for the same PMID whose Journal is empty — the `existing.update(new)`
call overwrites the Journal with the empty string, so the dedicated
journal-preservation `if` on lines 401-402 is dead code and the non-empty
Journal "Surgery" is lost, contradicting the spec's "preferring the most
complete field values". -/
theorem merge_update_overwrites_journal :
    merge_new_articles
        [[("PMID", "1"), ("Title", "A"), ("Journal", "Surgery")]]
        [[("Title", "B"), ("PMID", "1"), ("Journal", "")]] =
      some [[("PMID", "1"), ("Title", "B"), ("Journal", "")]] := by
  rfl

set_option maxRecDepth 100000 in
/-- Claim C2 (code bug): a vocabulary (MeSH) term is NOT marked consumed —
`matched_clean` on lines 92/109 is only ever written, never read.  At the
failing input, keywords `["xqzv", "xqzw"]` and the single MeSH term `"xqzv"`:
the first keyword matches the MeSH term exactly (similarity 1.0) and the
second keyword matches the *same* MeSH term (similarity 0.75 ≥ 0.6), so both
keywords are kept; under the claimed consume-once semantics the output would
be `["xqzv"]` only. -/
theorem mesh_term_not_consumed :
    process_paper ["xqzv", "xqzw"] ["xqzv"] = ["xqzv", "xqzw"] := by
  rfl

/-- Claim C6 (confirmed): for `start ≤ end`, the midpoint split into
`[start, mid]` and `[mid + 1, end]` (with `mid = get_mid_date start end`,
line 334, and the second child starting one day after `mid`, line 340) is a
partition of the parent: the children are contiguous and disjoint and their
union is exactly the parent range. -/
theorem midpoint_split_partitions (s e : Nat) (h : s ≤ e) :
    s ≤ get_mid_date s e ∧ get_mid_date s e ≤ e ∧
    (∀ d, (s ≤ d ∧ d ≤ e) ↔
      ((s ≤ d ∧ d ≤ get_mid_date s e) ∨ (get_mid_date s e + 1 ≤ d ∧ d ≤ e))) ∧
    (∀ d, ¬ ((s ≤ d ∧ d ≤ get_mid_date s e) ∧
      (get_mid_date s e + 1 ≤ d ∧ d ≤ e))) := by
  unfold get_mid_date
  refine ⟨by omega, by omega, fun d => by omega, fun d => by omega⟩

theorem midpoint_split_partitions_witness :
    (3 : Nat) ≤ 8 ∧
    (3 ≤ get_mid_date 3 8 ∧ get_mid_date 3 8 ≤ 8 ∧
    (∀ d, (3 ≤ d ∧ d ≤ 8) ↔
      ((3 ≤ d ∧ d ≤ get_mid_date 3 8) ∨ (get_mid_date 3 8 + 1 ≤ d ∧ d ≤ 8))) ∧
    (∀ d, ¬ ((3 ≤ d ∧ d ≤ get_mid_date 3 8) ∧
      (get_mid_date 3 8 + 1 ≤ d ∧ d ≤ 8)))) :=
  ⟨by decide, midpoint_split_partitions 3 8 (by decide)⟩

/-- More fuel never changes a result that was already reached. -/
theorem pti_mono : ∀ (f f' : Nat), f ≤ f' →
    ∀ (cnt : Nat → Nat → Option Nat) (pf : Nat → Nat → Nat → List Article)
      (ex : List String) (s e : Nat) (v : List Article),
    process_time_interval f cnt pf ex s e = some v →
    process_time_interval f' cnt pf ex s e = some v := by
  intro f
  induction f with
  | zero =>
    intro f' _ cnt pf ex s e v h
    simp [process_time_interval] at h
  | succ f ih =>
    intro f' hf cnt pf ex s e v h
    obtain ⟨f'', rfl⟩ : ∃ f'', f' = f'' + 1 := ⟨f' - 1, by omega⟩
    have hf'' : f ≤ f'' := by omega
    cases hc : cnt s e with
    | none =>
      simp only [process_time_interval, hc] at h ⊢
      exact h
    | some total =>
      simp only [process_time_interval, hc] at h ⊢
      by_cases h0 : total = 0
      · rw [if_pos h0] at h ⊢; exact h
      · rw [if_neg h0] at h ⊢
        by_cases h1 : total ≤ 10000
        · rw [if_pos h1] at h ⊢; exact h
        · rw [if_neg h1] at h ⊢
          cases hA : process_time_interval f cnt pf ex s (get_mid_date s e) with
          | none => rw [hA] at h; exact absurd h (by simp)
          | some a1 =>
            cases hB : process_time_interval f cnt pf ex
                (get_mid_date s e + 1) e with
            | none => rw [hA, hB] at h; exact absurd h (by simp)
            | some a2 =>
              rw [hA, hB] at h
              rw [ih f'' hf'' cnt pf ex s (get_mid_date s e) a1 hA,
                ih f'' hf'' cnt pf ex (get_mid_date s e + 1) e a2 hB]
              exact h

/-- Claim C3, counterexample: on a single-day range whose result count exceeds
10,000 (here: every interval reports 20,000), `get_mid_date d d = d`, so the
planner splits `[d, d]` into `[d, d]` and `[d+1, d]` and recurses on itself —
no finite nesting depth completes, i.e. the ideal recursion diverges.  The
range `[0, 0]` is a single day, and the claim's assertion that it "is never
split further but accepted as-is" fails. -/
theorem single_day_split_diverges :
    ¬ TerminatesTI (fun _ _ => some 20000) (fun _ _ _ => []) [] 0 0 := by
  have key : ∀ fuel, process_time_interval fuel (fun _ _ => some 20000)
      (fun _ _ _ => []) [] 0 0 = none := by
    intro fuel
    induction fuel with
    | zero => rfl
    | succ fuel ih =>
      simp only [process_time_interval]
      rw [if_neg (by omega), if_neg (by omega)]
      have hmid : get_mid_date 0 0 = 0 := rfl
      rw [hmid, ih]
  rintro ⟨fuel, h⟩
  rw [key fuel] at h
  simp at h

/-- Claim C3, amended: the recursion terminates — with nesting depth bounded
by the day count of the range — whenever `start ≤ end` and no single-day
subrange reports more than 10,000 results; a single-day range above that
threshold is re-split into itself and the recursion diverges
(`single_day_split_diverges`). -/
theorem planner_terminates_when_single_days_fit
    (cnt : Nat → Nat → Option Nat) (pf : Nat → Nat → Nat → List Article)
    (ex : List String) (s e : Nat) (hse : s ≤ e)
    (hday : ∀ d c, s ≤ d → d ≤ e → cnt d d = some c → c ≤ 10000) :
    (process_time_interval (e - s + 1) cnt pf ex s e).isSome := by
  have main : ∀ k s e, e - s ≤ k → s ≤ e →
      (∀ d c, s ≤ d → d ≤ e → cnt d d = some c → c ≤ 10000) →
      (process_time_interval (e - s + 1) cnt pf ex s e).isSome := by
    intro k
    induction k with
    | zero =>
      intro s e hk hse hday
      have he : e = s := by omega
      subst he
      cases hc : cnt e e with
      | none => simp [process_time_interval, hc]
      | some total =>
        simp only [process_time_interval, hc]
        by_cases h0 : total = 0
        · rw [if_pos h0]; simp
        · rw [if_neg h0, if_pos (hday e total (le_refl e) (le_refl e) hc)]
          cases crawl_time_interval total ex (pf e e) <;> simp
    | succ k ih =>
      intro s e hk hse hday
      obtain ⟨fe, hfe⟩ : ∃ fe, e - s + 1 = fe + 1 := ⟨e - s, rfl⟩
      rw [hfe]
      cases hc : cnt s e with
      | none => simp [process_time_interval, hc]
      | some total =>
        simp only [process_time_interval, hc]
        by_cases h0 : total = 0
        · rw [if_pos h0]; simp
        · rw [if_neg h0]
          by_cases h1 : total ≤ 10000
          · rw [if_pos h1]
            cases crawl_time_interval total ex (pf s e) <;> simp
          · rw [if_neg h1]
            have hne : s ≠ e := by
              intro hcontra
              subst hcontra
              exact h1 (hday s total (le_refl s) (le_refl s) hc)
            have hlt : s < e := lt_of_le_of_ne hse hne
            have hmid1 : s ≤ get_mid_date s e := by
              unfold get_mid_date; omega
            have hmid2 : get_mid_date s e < e := by
              unfold get_mid_date; omega
            have hA := ih s (get_mid_date s e)
              (by unfold get_mid_date at *; omega) hmid1
              (fun d c hd1 hd2 hcd => hday d c hd1 (by omega) hcd)
            have hB := ih (get_mid_date s e + 1) e
              (by unfold get_mid_date at *; omega) (by omega)
              (fun d c hd1 hd2 hcd => hday d c (by omega) hd2 hcd)
            obtain ⟨a1, ha1⟩ := Option.isSome_iff_exists.mp hA
            obtain ⟨a2, ha2⟩ := Option.isSome_iff_exists.mp hB
            have ha1' := pti_mono _ fe
              (by unfold get_mid_date at *; omega) cnt pf ex s
              (get_mid_date s e) a1 ha1
            have ha2' := pti_mono _ fe
              (by unfold get_mid_date at *; omega) cnt pf ex
              (get_mid_date s e + 1) e a2 ha2
            rw [ha1', ha2']
            simp
  exact main (e - s) s e (le_refl _) hse hday

theorem planner_terminates_witness :
    ((0 : Nat) ≤ 1 ∧
      (∀ d c, 0 ≤ d → d ≤ 1 →
        (fun a b : Nat => some (if a = b then 5 else 20000)) d d = some c →
        c ≤ 10000)) ∧
    (process_time_interval (1 - 0 + 1)
      (fun a b : Nat => some (if a = b then 5 else 20000))
      (fun _ _ _ => []) [] 0 1).isSome :=
  ⟨⟨by decide, fun d c _ _ h => by
      simp at h
      omega⟩,
    planner_terminates_when_single_days_fit
      (fun a b : Nat => some (if a = b then 5 else 20000))
      (fun _ _ _ => []) [] 0 1 (by decide)
      (fun d c _ _ h => by
        simp at h
        omega)⟩

/-- Claim C4, counterexample: a failing oracle call in `are_authors_same` is
NOT retried.  Here the first call fails with HTTP status 500 while a retry
would have returned a conforming "same" verdict — yet exactly one call is
made and the judgment is "different" (`False`) with the logged error message.
The function has no retry loop (lines 102-145: one `requests.post` inside a
single `try`). -/
theorem oracle_failure_not_retried :
    are_authors_same "Hospital A" "Hospital B"
      (fun t => if t = 0 then OracleOutcome.resp 500 ""
                else OracleOutcome.resp 200 "判断结果：是") =
      ((false, "模型请求失败，状态码: 500"), 1) := by
  rfl

/-- Claim C4, amended: each identity judgment makes at most one oracle call
(zero when an affiliation is empty, one otherwise, never a retry), and the
verdict is "same" exactly when both affiliations are non-empty and the single
call returns HTTP 200 with a body containing the mandated "判断结果：是"
marker — so every failure (bad status, exception, or non-conforming response)
conservatively yields "different" and no union is performed. -/
theorem are_authors_same_single_call (aff1 aff2 : String)
    (oracle : Nat → OracleOutcome) :
    (are_authors_same aff1 aff2 oracle).2 ≤ 1 ∧
    ((are_authors_same aff1 aff2 oracle).1.1 = true ↔
      (aff1 ≠ "" ∧ aff2 ≠ "" ∧ ∃ body,
        oracle 0 = OracleOutcome.resp 200 body ∧
        strContainsSub (String.mk (pyStrip body.toList)).toList
          "判断结果：是".toList = true)) := by
  by_cases hg : aff1 = "" ∨ aff2 = ""
  · simp only [are_authors_same, if_pos hg]
    refine ⟨by omega, ?_⟩
    constructor
    · intro h; cases h
    · rintro ⟨h1, h2, _⟩
      rcases hg with h | h
      · exact absurd h h1
      · exact absurd h h2
  · have hg' : aff1 ≠ "" ∧ aff2 ≠ "" := by
      constructor
      · intro h; exact hg (Or.inl h)
      · intro h; exact hg (Or.inr h)
    cases ho : oracle 0 with
    | resp status body =>
      simp only [are_authors_same, ho]
      rw [if_neg hg]
      by_cases hs : status = 200
      · subst hs
        rw [if_pos rfl]
        by_cases hyes : strContainsSub (String.mk (pyStrip body.toList)).toList
            "判断结果：是".toList = true
        · rw [if_pos hyes]
          refine ⟨by omega, ?_⟩
          constructor
          · intro _
            exact ⟨hg'.1, hg'.2, body, rfl, hyes⟩
          · intro _; rfl
        · rw [if_neg hyes]
          have hfalse : (if strContainsSub
              (String.mk (pyStrip body.toList)).toList "判断结果：否".toList then
                ((false, String.mk (pyStrip body.toList)), 1)
              else ((false, String.mk (pyStrip body.toList)), 1)) =
              ((false, String.mk (pyStrip body.toList)), 1) := by
            split <;> rfl
          rw [hfalse]
          refine ⟨by omega, ?_⟩
          constructor
          · intro h; cases h
          · rintro ⟨_, _, body', hb, hyes'⟩
            have hbb : body' = body := by
              cases hb
              rfl
            subst hbb
            exact absurd hyes' hyes
      · rw [if_neg hs]
        refine ⟨by omega, ?_⟩
        constructor
        · intro h; cases h
        · rintro ⟨_, _, body', hb, _⟩
          cases hb
          exact absurd rfl hs
    | exn msg =>
      simp only [are_authors_same, ho]
      rw [if_neg hg]
      refine ⟨by omega, ?_⟩
      constructor
      · intro h; cases h
      · rintro ⟨_, _, body', hb, _⟩
        cases hb

/-- Claim C5, counterexample: a failing call in `extract_keywords` is NOT
retried and its placeholder is the empty string, not "unknown".  Here the
first call raises while a retry would have returned five keywords — yet
exactly one call is made and the result is five empty strings (there is no
retry loop in lines 49-90, and the failure placeholder is `["", "", "", "",
""]`, not an "unknown" marker). -/
theorem keyword_oracle_failure_not_retried :
    extract_keywords "some abstract"
      (fun t => if t = 0 then OracleOutcome.exn "timeout"
                else OracleOutcome.resp 200 "A\nB\nC\nD\nE") =
      (["", "", "", "", ""], 1) := by
  rfl

/-- A failed attempt moves the retry loop of `extract_affiliation_info` to
the next attempt. -/
theorem eaiGo_fail_step (index : Nat) (oracle : Nat → OracleOutcome)
    (k r : Nat) (hf : isFailureOutcome (oracle k)) :
    eaiGo index oracle k (r + 1) = eaiGo index oracle (k + 1) r := by
  cases ho : oracle k with
  | resp status body =>
    rw [ho] at hf
    have hs : status ≠ 200 := hf
    simp only [eaiGo, ho]
    rw [if_neg hs]
  | exn msg =>
    simp only [eaiGo, ho]

/-- Claim C5, amended: the affiliation-geography extractor
(`extract_affiliation_info`, which runs `eaiGo` on the first
semicolon-separated affiliation) retries a failed call (bad status or
exception) up to 3 times and fills all three fields with the placeholder
"未知" ("unknown") after exhausting them, while the keyword extractor
(`extract_keywords`) makes exactly one call, never retries, and yields five
*empty-string* placeholders on any failure; both functions are total, so
neither aborts the pipeline on an oracle failure. -/
theorem enrichment_retry_behaviour (abstract : String)
    (oracle : Nat → OracleOutcome) (affiliation : String) (index : Nat)
    (oracle2 oracle3 : Nat → OracleOutcome) (body : String) :
    (extract_keywords abstract oracle).2 = 1 ∧
    (isFailureOutcome (oracle 0) →
      extract_keywords abstract oracle = (["", "", "", "", ""], 1)) ∧
    (∀ orc : String → Nat → OracleOutcome,
      extract_affiliation_info affiliation index orc =
        eaiGo index
          (orc (String.mk (pyStrip (((affiliation.splitOn ";").headD "").toList))))
          0 3) ∧
    ((∀ t, t < 3 → isFailureOutcome (oracle2 t)) →
      eaiGo index oracle2 0 3 = ((index, "未知", "未知", "未知"), 3)) ∧
    (isFailureOutcome (oracle3 0) → oracle3 1 = OracleOutcome.resp 200 body →
      (eaiGo index oracle3 0 3).2 = 2) := by
  refine ⟨?_, ?_, fun _ => rfl, ?_, ?_⟩
  · cases ho : oracle 0 with
    | resp status b =>
      simp only [extract_keywords, ho]
      by_cases hs : status = 200
      · rw [if_pos hs]
      · rw [if_neg hs]
    | exn msg =>
      simp only [extract_keywords, ho]
  · intro hf
    cases ho : oracle 0 with
    | resp status b =>
      rw [ho] at hf
      have hs : status ≠ 200 := hf
      simp only [extract_keywords, ho]
      rw [if_neg hs]
    | exn msg =>
      simp only [extract_keywords, ho]
  · intro hfail
    rw [eaiGo_fail_step index oracle2 0 2 (hfail 0 (by omega)),
      eaiGo_fail_step index oracle2 1 1 (hfail 1 (by omega)),
      eaiGo_fail_step index oracle2 2 0 (hfail 2 (by omega))]
    rfl
  · intro hf h1
    rw [eaiGo_fail_step index oracle3 0 2 hf]
    simp only [eaiGo, h1]
    simp

theorem enrichment_retry_witness :
    isFailureOutcome (OracleOutcome.exn "boom") ∧
    extract_keywords "abs" (fun _ => OracleOutcome.exn "boom") =
      (["", "", "", "", ""], 1) ∧
    (∀ t, t < 3 → isFailureOutcome (OracleOutcome.resp 500 "x")) ∧
    eaiGo 7 (fun _ => OracleOutcome.resp 500 "x") 0 3 =
      ((7, "未知", "未知", "未知"), 3) ∧
    (eaiGo 7 (fun t => if t = 0 then OracleOutcome.exn "boom"
        else OracleOutcome.resp 200 "A\nB\nC") 0 3).2 = 2 :=
  ⟨by decide,
   (enrichment_retry_behaviour "abs" (fun _ => OracleOutcome.exn "boom")
     "X; Y" 7 (fun _ => OracleOutcome.resp 500 "x")
     (fun t => if t = 0 then OracleOutcome.exn "boom"
       else OracleOutcome.resp 200 "A\nB\nC") "A\nB\nC").2.1 (by decide),
   fun t _ => by decide,
   (enrichment_retry_behaviour "abs" (fun _ => OracleOutcome.exn "boom")
     "X; Y" 7 (fun _ => OracleOutcome.resp 500 "x")
     (fun t => if t = 0 then OracleOutcome.exn "boom"
       else OracleOutcome.resp 200 "A\nB\nC") "A\nB\nC").2.2.2.1
     (fun t _ => by decide),
   (enrichment_retry_behaviour "abs" (fun _ => OracleOutcome.exn "boom")
     "X; Y" 7 (fun _ => OracleOutcome.resp 500 "x")
     (fun t => if t = 0 then OracleOutcome.exn "boom"
       else OracleOutcome.resp 200 "A\nB\nC") "A\nB\nC").2.2.2.2
     (by decide) (by decide)⟩

theorem canonicalOf_head (l : List Nat) (h : l ≠ []) :
    (canonicalOf l).head? = some 0 := by
  cases l with
  | nil => exact absurd rfl h
  | cons x t =>
    show some (List.indexOf x (firstSeenL (x :: t))) = some 0
    unfold firstSeenL
    rw [fsAux_cons_not_mem [] x t (by simp)]
    rw [List.indexOf_cons_self]

/-- Claim C7 (confirmed): `process_author_group` assigns each record the
canonical renumbering of its union-find root — group identities are the
integers 0, 1, 2, ... handed out in the order group leaders (roots) are first
encountered scanning the records in original order (`canonicalOf`), the first
record always receiving identity 0.  Being a pure function of the affiliation
list and the oracle verdicts, the assignment is deterministic and stable
across re-runs with the same input order and the same oracle answers. -/
theorem author_ids_first_seen_order (affs : List String)
    (judge : Nat → Nat → Bool) :
    process_author_group affs judge =
      some (canonicalOf (groupRoots affs judge)) ∧
    (affs ≠ [] → (canonicalOf (groupRoots affs judge)).head? = some 0) := by
  constructor
  · unfold process_author_group
    by_cases h1 : affs.length = 1
    · rw [if_pos h1]
      have hgr : groupRoots affs judge =
          [rootD (pagPasses affs judge).parent 0] := by
        unfold groupRoots
        rw [h1]
        rfl
      rw [hgr]
      show some [0] = some (canonicalOf [rootD (pagPasses affs judge).parent 0])
      unfold canonicalOf firstSeenL
      rw [fsAux_cons_not_mem [] _ [] (by simp)]
      simp [List.indexOf_cons_self, fsAux]
    · rw [if_neg h1]
      show (pagIds affs.length (pagAssign affs.length (pagPasses affs judge)).1
        (pagAssign affs.length (pagPasses affs judge)).2.1).map (fun st => st.2) =
        some (canonicalOf (groupRoots affs judge))
      exact pag_assign_ids affs judge
  · intro hne
    apply canonicalOf_head
    unfold groupRoots
    intro hc
    have : affs.length = 0 := by
      have := congrArg List.length hc
      simpa using this
    exact hne (List.length_eq_zero.mp this)

theorem author_ids_witness :
    (["Hosp X", "Hosp x", "Hosp Y"] : List String) ≠ [] ∧
    process_author_group ["Hosp X", "Hosp x", "Hosp Y"] (fun _ _ => false) =
      some (canonicalOf
        (groupRoots ["Hosp X", "Hosp x", "Hosp Y"] (fun _ _ => false))) ∧
    (canonicalOf
      (groupRoots ["Hosp X", "Hosp x", "Hosp Y"] (fun _ _ => false))).head? =
      some 0 :=
  ⟨by decide,
   (author_ids_first_seen_order ["Hosp X", "Hosp x", "Hosp Y"]
     (fun _ _ => false)).1,
   (author_ids_first_seen_order ["Hosp X", "Hosp x", "Hosp Y"]
     (fun _ _ => false)).2 (by decide)⟩

theorem pyGet_eq_keyOf (r : Article) (h : (pyGet r "PMID").isSome) :
    pyGet r "PMID" = some (keyOf r) := by
  unfold keyOf
  cases hr : pyGet r "PMID" with
  | none => rw [hr] at h; cases h
  | some v => rfl

/-- The rows kept by the de-duplication pass, relative to an already-seen
identifier set: exactly the rows with a non-empty, not-yet-seen PMID, in
order, first occurrence first. -/
def dedupSpec : List Article → List String → List Article
  | [], _ => []
  | r :: t, seen =>
    if keyOf r = "" ∨ keyOf r ∈ seen then dedupSpec t seen
    else r :: dedupSpec t (keyOf r :: seen)

theorem dedupSpec_cons (r : Article) (t : List Article) (seen : List String) :
    dedupSpec (r :: t) seen =
      if keyOf r = "" ∨ keyOf r ∈ seen then dedupSpec t seen
      else r :: dedupSpec t (keyOf r :: seen) := rfl

theorem rdp_fold : ∀ (rows : List Article) (acc : List Article)
    (seen : List String),
    (∀ r ∈ rows, (pyGet r "PMID").isSome) →
    ∃ seen', rows.foldlM rdpStep (acc, seen) =
      some (acc ++ dedupSpec rows seen, seen') := by
  intro rows
  induction rows with
  | nil => intro acc seen _; exact ⟨seen, by simp [dedupSpec]⟩
  | cons r t ih =>
    intro acc seen hsome
    have hr := pyGet_eq_keyOf r (hsome r (List.mem_cons_self r t))
    have htail := fun x hx => hsome x (List.mem_cons_of_mem r hx)
    rw [List.foldlM_cons]
    have hstep : rdpStep (acc, seen) r =
        if keyOf r = "" ∨ keyOf r ∈ seen then some (acc, seen)
        else some (acc ++ [r], keyOf r :: seen) := by
      unfold rdpStep
      rw [hr]
      rfl
    by_cases hc : keyOf r = "" ∨ keyOf r ∈ seen
    · rw [hstep, if_pos hc]
      obtain ⟨seen', hs⟩ := ih acc seen htail
      refine ⟨seen', ?_⟩
      show t.foldlM rdpStep (acc, seen) = _
      rw [hs]
      show some (acc ++ dedupSpec t seen, seen') = _
      rw [show dedupSpec (r :: t) seen = dedupSpec t seen from by
        rw [dedupSpec_cons, if_pos hc]]
    · rw [hstep, if_neg hc]
      obtain ⟨seen', hs⟩ := ih (acc ++ [r]) (keyOf r :: seen) htail
      refine ⟨seen', ?_⟩
      show t.foldlM rdpStep (acc ++ [r], keyOf r :: seen) = _
      rw [hs]
      rw [show dedupSpec (r :: t) seen = r :: dedupSpec t (keyOf r :: seen) from
        by rw [dedupSpec_cons, if_neg hc]]
      rw [List.append_assoc, List.singleton_append]

theorem dedupSpec_sublist : ∀ (rows : List Article) (seen : List String),
    (dedupSpec rows seen).Sublist rows := by
  intro rows
  induction rows with
  | nil => intro seen; simp [dedupSpec]
  | cons r t ih =>
    intro seen
    unfold dedupSpec
    by_cases hc : keyOf r = "" ∨ keyOf r ∈ seen
    · rw [if_pos hc]
      exact List.Sublist.cons r (ih seen)
    · rw [if_neg hc]
      exact List.Sublist.cons₂ r (ih (keyOf r :: seen))

theorem dedupSpec_keys : ∀ (rows : List Article) (seen : List String),
    (dedupSpec rows seen).map keyOf =
      fsAux seen ((rows.map keyOf).filter (fun p => p ≠ "")) := by
  intro rows
  induction rows with
  | nil => intro seen; simp [dedupSpec, fsAux]
  | cons r t ih =>
    intro seen
    show (dedupSpec (r :: t) seen).map keyOf =
      fsAux seen ((keyOf r :: t.map keyOf).filter (fun p => p ≠ ""))
    by_cases h0 : keyOf r = ""
    · rw [show (keyOf r :: t.map keyOf).filter (fun p => p ≠ "") =
          (t.map keyOf).filter (fun p => p ≠ "") from by
        simp [List.filter, h0]]
      rw [show dedupSpec (r :: t) seen = dedupSpec t seen from by
        rw [dedupSpec_cons, if_pos (Or.inl h0)]]
      exact ih seen
    · rw [show (keyOf r :: t.map keyOf).filter (fun p => p ≠ "") =
          keyOf r :: (t.map keyOf).filter (fun p => p ≠ "") from by
        simp [List.filter, h0]]
      by_cases hs : keyOf r ∈ seen
      · rw [fsAux_cons_mem _ _ _ hs]
        rw [show dedupSpec (r :: t) seen = dedupSpec t seen from by
          rw [dedupSpec_cons, if_pos (Or.inr hs)]]
        exact ih seen
      · rw [fsAux_cons_not_mem _ _ _ hs]
        rw [show dedupSpec (r :: t) seen =
            r :: dedupSpec t (keyOf r :: seen) from by
          rw [dedupSpec_cons, if_neg (by push_neg; exact ⟨h0, hs⟩)]]
        show keyOf r :: (dedupSpec t (keyOf r :: seen)).map keyOf = _
        rw [ih (keyOf r :: seen)]

theorem fsAux_nodup {α : Type} [DecidableEq α] :
    ∀ (l seen : List α), (fsAux seen l).Nodup := by
  intro l
  induction l with
  | nil => intro seen; simp [fsAux]
  | cons x t ih =>
    intro seen
    by_cases hx : x ∈ seen
    · rw [fsAux_cons_mem _ _ _ hx]
      exact ih seen
    · rw [fsAux_cons_not_mem _ _ _ hx]
      refine List.Nodup.cons ?_ (ih (x :: seen))
      intro hc
      have := (fsAux_mem t (x :: seen) x).mp hc
      exact this.2 (List.mem_cons_self x seen)

theorem dedupSpec_find : ∀ (rows : List Article) (seen : List String)
    (p : String), p ≠ "" → p ∉ seen →
    rows.find? (fun r => keyOf r == p) =
      (dedupSpec rows seen).find? (fun r => keyOf r == p) := by
  intro rows
  induction rows with
  | nil => intro seen p _ _; simp [dedupSpec]
  | cons r t ih =>
    intro seen p hp hps
    by_cases hkp : keyOf r = p
    · have hcond : ¬ (keyOf r = "" ∨ keyOf r ∈ seen) := by
        rw [hkp]
        push_neg
        exact ⟨hp, hps⟩
      rw [show dedupSpec (r :: t) seen =
          r :: dedupSpec t (keyOf r :: seen) from by
        rw [dedupSpec_cons, if_neg hcond]]
      rw [List.find?_cons, List.find?_cons]
      have : (keyOf r == p) = true := by simpa using hkp
      rw [this]
    · have hne : (keyOf r == p) = false := by simpa using hkp
      rw [List.find?_cons, hne]
      by_cases hc : keyOf r = "" ∨ keyOf r ∈ seen
      · rw [show dedupSpec (r :: t) seen = dedupSpec t seen from by
          rw [dedupSpec_cons, if_pos hc]]
        exact ih seen p hp hps
      · rw [show dedupSpec (r :: t) seen =
            r :: dedupSpec t (keyOf r :: seen) from by
          rw [dedupSpec_cons, if_neg hc]]
        rw [List.find?_cons, hne]
        refine ih (keyOf r :: seen) p hp ?_
        intro hc2
        rcases List.mem_cons.mp hc2 with h | h
        · exact hkp h.symm
        · exact hps h

/-- Claim C8 (confirmed): on rows whose `PMID` key exists, the de-duplication
pass succeeds and removes exactly the rows with an empty identifier and the
rows whose identifier was already seen: the output is a subsequence of the
input whose identifiers are exactly the distinct non-empty input identifiers
in first-occurrence order (`firstSeenL`), each appearing exactly once
(`Nodup`), the first row bearing each identifier is the one kept (`find?`
agreement), and the output length is the number of distinct non-empty
identifiers (so input length minus the number of removed rows). -/
theorem remove_duplicate_pmids_spec (rows : List Article)
    (h : ∀ r ∈ rows, (pyGet r "PMID").isSome) :
    ∃ out, remove_duplicate_pmids rows = some out ∧
      out.Sublist rows ∧
      out.map keyOf = firstSeenL ((rows.map keyOf).filter (fun p => p ≠ "")) ∧
      (out.map keyOf).Nodup ∧
      (∀ p, p ≠ "" → (p ∈ rows.map keyOf ↔ p ∈ out.map keyOf)) ∧
      (∀ p, p ≠ "" → rows.find? (fun r => keyOf r == p) =
        out.find? (fun r => keyOf r == p)) ∧
      out.length =
        (firstSeenL ((rows.map keyOf).filter (fun p => p ≠ ""))).length := by
  obtain ⟨seen', hfold⟩ := rdp_fold rows [] [] h
  refine ⟨dedupSpec rows [], ?_, dedupSpec_sublist rows [], ?_, ?_, ?_, ?_, ?_⟩
  · unfold remove_duplicate_pmids
    rw [hfold]
    rfl
  · exact dedupSpec_keys rows []
  · rw [dedupSpec_keys rows []]
    exact fsAux_nodup _ []
  · intro p hp
    rw [dedupSpec_keys rows []]
    show p ∈ rows.map keyOf ↔ p ∈ fsAux [] _
    rw [fsAux_mem]
    simp only [List.mem_filter, List.not_mem_nil, not_false_iff, and_true]
    constructor
    · intro hmem
      exact ⟨hmem, by simpa using hp⟩
    · intro hmem
      exact hmem.1
  · intro p hp
    exact dedupSpec_find rows [] p hp (List.not_mem_nil p)
  · have := congrArg List.length (dedupSpec_keys rows [])
    simpa using this

theorem remove_duplicate_pmids_witness :
    (∀ r ∈ ([[("PMID", "1"), ("Title", "a")], [("PMID", "")],
        [("PMID", "1"), ("Title", "b")], [("PMID", "2")]] : List Article),
      (pyGet r "PMID").isSome) ∧
    (∃ out, remove_duplicate_pmids
        [[("PMID", "1"), ("Title", "a")], [("PMID", "")],
         [("PMID", "1"), ("Title", "b")], [("PMID", "2")]] = some out ∧
      out.Sublist [[("PMID", "1"), ("Title", "a")], [("PMID", "")],
         [("PMID", "1"), ("Title", "b")], [("PMID", "2")]] ∧
      out.map keyOf = firstSeenL ((([[("PMID", "1"), ("Title", "a")],
        [("PMID", "")], [("PMID", "1"), ("Title", "b")],
        [("PMID", "2")]] : List Article).map keyOf).filter
          (fun p => p ≠ "")) ∧
      (out.map keyOf).Nodup ∧
      (∀ p, p ≠ "" → (p ∈ (([[("PMID", "1"), ("Title", "a")], [("PMID", "")],
        [("PMID", "1"), ("Title", "b")],
        [("PMID", "2")]] : List Article)).map keyOf ↔ p ∈ out.map keyOf)) ∧
      (∀ p, p ≠ "" → (([[("PMID", "1"), ("Title", "a")], [("PMID", "")],
        [("PMID", "1"), ("Title", "b")],
        [("PMID", "2")]] : List Article)).find? (fun r => keyOf r == p) =
        out.find? (fun r => keyOf r == p)) ∧
      out.length = (firstSeenL ((([[("PMID", "1"), ("Title", "a")],
        [("PMID", "")], [("PMID", "1"), ("Title", "b")],
        [("PMID", "2")]] : List Article).map keyOf).filter
          (fun p => p ≠ ""))).length) :=
  ⟨by decide,
   remove_duplicate_pmids_spec
     [[("PMID", "1"), ("Title", "a")], [("PMID", "")],
      [("PMID", "1"), ("Title", "b")], [("PMID", "2")]] (by decide)⟩

theorem pyGet_append_none {κ α : Type} [BEq κ] (d : List (κ × α)) (k0 : κ)
    (v : α) (k : κ) (h : pyGet d k = none) :
    pyGet (d ++ [(k0, v)]) k = if k0 == k then some v else none := by
  induction d with
  | nil =>
    show pyGet [(k0, v)] k = _
    rw [pyGet_cons]
    rfl
  | cons kv t ih =>
    rw [pyGet_cons] at h
    by_cases hk : (kv.1 == k)
    · simp [hk] at h
    · have ht : pyGet t k = none := by simpa [hk] using h
      show pyGet (kv :: (t ++ [(k0, v)])) k = _
      rw [pyGet_cons]
      simp only [hk, if_false]
      exact ih ht

theorem mna_build : ∀ (l : List Article) (acc : List (String × Article)),
    (∀ a ∈ l, (pyGet a "PMID").isSome) →
    (∀ a ∈ l, pyGet acc (keyOf a) = none) →
    (l.map keyOf).Nodup →
    l.foldlM mnaBuildStep acc = some (acc ++ l.map (fun a => (keyOf a, a))) := by
  intro l
  induction l with
  | nil => intro acc _ _ _; simp
  | cons a t ih =>
    intro acc hsome hacc hnd
    have ha := pyGet_eq_keyOf a (hsome a (List.mem_cons_self a t))
    have hstep : mnaBuildStep acc a = some (pySet acc (keyOf a) a) := by
      unfold mnaBuildStep
      rw [ha]
      rfl
    have hset : pySet acc (keyOf a) a = acc ++ [(keyOf a, a)] :=
      pySet_not_mem acc (keyOf a) a (hacc a (List.mem_cons_self a t))
    rw [List.foldlM_cons, hstep]
    have hnd' : (t.map keyOf).Nodup := (List.nodup_cons.mp hnd).2
    have hkey : keyOf a ∉ t.map keyOf := (List.nodup_cons.mp hnd).1
    have hacc' : ∀ b ∈ t, pyGet (acc ++ [(keyOf a, a)]) (keyOf b) = none := by
      intro b hb
      rw [pyGet_append_none acc (keyOf a) a (keyOf b)
        (hacc b (List.mem_cons_of_mem a hb))]
      have hne : keyOf a ≠ keyOf b := by
        intro hc
        exact hkey (hc ▸ List.mem_map.mpr ⟨b, hb, rfl⟩)
      simp [hne]
    have := ih (acc ++ [(keyOf a, a)])
      (fun b hb => hsome b (List.mem_cons_of_mem a hb)) hacc' hnd'
    show t.foldlM mnaBuildStep (pySet acc (keyOf a) a) = _
    rw [hset, this, List.append_assoc, List.singleton_append]
    rfl

/-- Claim C9 (confirmed): merging an empty new-record list into an existing
snapshot whose identifiers are pairwise distinct returns exactly the original
record list — identifier for identifier and field for field. -/
theorem merge_empty_update_id (existing : List Article)
    (h1 : ∀ a ∈ existing, (pyGet a "PMID").isSome)
    (h2 : (existing.map keyOf).Nodup) :
    merge_new_articles existing [] = some existing := by
  unfold merge_new_articles
  rw [mna_build existing [] h1 (fun a _ => rfl) h2]
  show some ((([] : List (String × Article)) ++
    existing.map (fun a => (keyOf a, a))).map (fun p => p.2)) = some existing
  rw [List.nil_append, List.map_map]
  congr 1
  exact List.map_id existing

theorem merge_empty_update_witness :
    ((∀ a ∈ ([[("PMID", "1"), ("Title", "A")],
        [("PMID", "2"), ("Journal", "J")]] : List Article),
      (pyGet a "PMID").isSome) ∧
     ((([[("PMID", "1"), ("Title", "A")],
        [("PMID", "2"), ("Journal", "J")]] : List Article).map keyOf).Nodup)) ∧
    merge_new_articles
      [[("PMID", "1"), ("Title", "A")], [("PMID", "2"), ("Journal", "J")]] [] =
      some [[("PMID", "1"), ("Title", "A")], [("PMID", "2"), ("Journal", "J")]] :=
  ⟨⟨by decide, by decide⟩,
   merge_empty_update_id
     [[("PMID", "1"), ("Title", "A")], [("PMID", "2"), ("Journal", "J")]]
     (by decide) (by decide)⟩

theorem except_bind_ok {ε α β : Type} (a : α) (f : α → Except ε β) :
    (Except.ok a >>= f) = f a := rfl

theorem except_bind_error {ε α β : Type} (e : ε) (f : α → Except ε β) :
    ((Except.error e : Except ε α) >>= f) = Except.error e := rfl

theorem crawl_filter_all_excluded (existing : List String) :
    ∀ (arts : List Article) (acc : List Article),
    (∀ a ∈ arts, ∃ s, pyGet a "PMID" = some s ∧ s ∈ existing) →
    arts.foldlM (crawlFilterStep existing) acc = Except.ok acc := by
  intro arts
  induction arts with
  | nil => intro acc _; rfl
  | cons a t ih =>
    intro acc hmem
    obtain ⟨sid, hsid, hin⟩ := hmem a (List.mem_cons_self a t)
    rw [List.foldlM_cons]
    have hstep : crawlFilterStep existing acc a = Except.ok acc := by
      unfold crawlFilterStep
      rw [hsid]
      show pure (if sid ∈ existing then acc else acc ++ [a]) = Except.ok acc
      rw [if_pos hin]
      rfl
    rw [hstep, except_bind_ok]
    exact ih acc (fun b hb => hmem b (List.mem_cons_of_mem a hb))

theorem crawl_pages_all_excluded (existing : List String)
    (page_fetch : Nat → List Article)
    (hpf : ∀ p a, a ∈ page_fetch p → ∃ s, pyGet a "PMID" = some s ∧
      s ∈ existing) :
    ∀ (pages : List Nat) (acc : List Article),
    pages.foldlM (crawlPageStep existing page_fetch) acc = Except.ok acc := by
  intro pages
  induction pages with
  | nil => intro acc; rfl
  | cons p t ih =>
    intro acc
    rw [List.foldlM_cons]
    have hstep : crawlPageStep existing page_fetch acc p = Except.ok acc := by
      show ((page_fetch (p + 1)).foldlM (crawlFilterStep existing)
        ([] : List Article) >>= fun new_articles =>
          pure (acc ++ new_articles)) = Except.ok acc
      rw [crawl_filter_all_excluded existing (page_fetch (p + 1)) []
        (fun a ha => hpf (p + 1) a ha), except_bind_ok]
      show Except.ok (acc ++ []) = Except.ok acc
      rw [List.append_nil]
    rw [hstep, except_bind_ok]
    exact ih acc

/-- Claim C10 (confirmed): `crawl_time_interval` returns normally only with a
non-empty collected list — its closing statistics divide by the length of the
collection, so when every parsed record's PMID is already in the exclusion set
(in particular when every page fetch fails, `page_fetch p = []`), the
collection stays empty and the function raises ZeroDivisionError instead of
returning `[]`; inside `process_time_interval` that error is absorbed by the
interval's catch-all `except`, which logs the interval as failed and yields
no articles for it. -/
theorem crawl_empty_raises_divzero (total_results : Nat)
    (existing : List String) (page_fetch : Nat → List Article) :
    (∀ l, crawl_time_interval total_results existing page_fetch =
      Except.ok l → l ≠ []) ∧
    ((∀ p a, a ∈ page_fetch p → ∃ s, pyGet a "PMID" = some s ∧ s ∈ existing) →
      crawl_time_interval total_results existing page_fetch =
        Except.error "ZeroDivisionError: division by zero") ∧
    (∀ (fuel : Nat) (cnt : Nat → Nat → Option Nat)
        (pf3 : Nat → Nat → Nat → List Article) (ex : List String)
        (s e total : Nat),
      cnt s e = some total → total ≠ 0 → total ≤ 10000 →
      crawl_time_interval total ex (pf3 s e) =
        Except.error "ZeroDivisionError: division by zero" →
      process_time_interval (fuel + 1) cnt pf3 ex s e = some []) := by
  have hunf : crawl_time_interval total_results existing page_fetch =
      ((List.range (min ((total_results + 199) / 200) 50)).foldlM
        (crawlPageStep existing page_fetch) ([] : List Article) >>=
        fun articles =>
          if articles.isEmpty then
            Except.error "ZeroDivisionError: division by zero"
          else pure articles) := rfl
  refine ⟨?_, ?_, ?_⟩
  · intro l h
    rw [hunf] at h
    cases hF : (List.range (min ((total_results + 199) / 200) 50)).foldlM
        (crawlPageStep existing page_fetch) ([] : List Article) with
    | error e =>
      rw [hF, except_bind_error] at h
      cases h
    | ok arts =>
      rw [hF, except_bind_ok] at h
      by_cases he : arts.isEmpty
      · rw [if_pos he] at h
        cases h
      · rw [if_neg he] at h
        have harts : arts = l := by
          cases h
          rfl
        subst harts
        intro hc
        subst hc
        exact he rfl
  · intro hpf
    rw [hunf, crawl_pages_all_excluded existing page_fetch hpf _ [],
      except_bind_ok]
    rfl
  · intro fuel cnt pf3 ex s e total hcnt h0 h1 hcrawl
    simp only [process_time_interval, hcnt]
    rw [if_neg h0, if_pos h1, hcrawl]

theorem crawl_empty_witness :
    (∀ p a, a ∈ (fun _ : Nat => [[("PMID", "1")]] : Nat → List Article) p →
      ∃ s, pyGet a "PMID" = some s ∧ s ∈ ["1"]) ∧
    crawl_time_interval 250 ["1"] (fun _ => [[("PMID", "1")]]) =
      Except.error "ZeroDivisionError: division by zero" ∧
    process_time_interval 1 (fun _ _ => some 250)
      (fun _ _ _ => [[("PMID", "1")]]) ["1"] 0 0 = some [] :=
  ⟨fun _ a ha => by
    simp only [List.mem_singleton] at ha
    subst ha
    exact ⟨"1", rfl, by decide⟩,
   (crawl_empty_raises_divzero 250 ["1"] (fun _ => [[("PMID", "1")]])).2.1
     (fun _ a ha => by
       simp only [List.mem_singleton] at ha
       subst ha
       exact ⟨"1", rfl, by decide⟩),
   (crawl_empty_raises_divzero 250 ["1"] (fun _ => [[("PMID", "1")]])).2.2
     0 (fun _ _ => some 250) (fun _ _ _ => [[("PMID", "1")]]) ["1"] 0 0 250
     rfl (by decide) (by decide)
     ((crawl_empty_raises_divzero 250 ["1"] (fun _ => [[("PMID", "1")]])).2.1
       (fun _ a ha => by
         simp only [List.mem_singleton] at ha
         subst ha
         exact ⟨"1", rfl, by decide⟩))⟩
